import Mathlib

/-
Verification of the gemplex search-engine core against its natural-language
specification.  The Go sources are shallowly embedded: pure fragments become
Lean functions, SQL row updates become explicit state-passing functions,
machine integers become Nat/Int, time instants become Nat, and Postgres
intervals become day counts (Postgres compares intervals by converting months
to 30 days, so `1 month` is 30 days).  Floating-point rank arithmetic is
embedded over ℚ; every statement made about it below is independent of
rounding (it concerns key sets and exact small-integer computations).
-/

namespace Gemplex

/-! ### Shared string helpers (ASCII fragments of Go's strings/unicode API)

The Go code uses `strings.ToLower`, `strings.TrimSpace`, `unicode.IsLetter`,
`unicode.IsDigit`.  The inputs relevant here are ASCII; these helpers model
the ASCII behaviour of those functions (the full Unicode tables live in the
Go standard library, outside this repository). -/

def asciiLower (c : Char) : Char :=
  if 65 ≤ c.toNat ∧ c.toNat ≤ 90 then Char.ofNat (c.toNat + 32) else c

def lowerList (l : List Char) : List Char :=
  l.map asciiLower

def isSpaceChar (c : Char) : Bool :=
  c == ' ' || c == '\t' || c == '\n' || c == '\x0b' || c == '\x0c' || c == '\r'

def trimSpaceList (l : List Char) : List Char :=
  ((l.dropWhile isSpaceChar).reverse.dropWhile isSpaceChar).reverse

/-- `strings.Split` with a one-character separator, on character lists
(structurally recursive so that closed instances evaluate in the kernel). -/
def splitOnChar (sep : Char) : List Char → List (List Char)
  | [] => [[]]
  | c :: rest =>
    let r := splitOnChar sep rest
    if c = sep then [] :: r
    else
      match r with
      | h :: t => (c :: h) :: t
      | [] => [[c]]

/-! ### Crawler constants (part_004, `const` block) -/

/-- `permanentErrorRetry = "1 month"`, in days. -/
def permanentErrorRetryDays : Nat := 30

/-- `tempErrorMinRetry = "1 day"`, in days. -/
def tempErrorMinRetryDays : Nat := 1

/-- `revisitTimeIncrementNoChange = "2 days"`, in days. -/
def revisitTimeIncrementNoChangeDays : Nat := 2

/-- `revisitTimeAfterChange = "2 days"`, in days. -/
def revisitTimeAfterChangeDays : Nat := 2

/-- `maxRevisitTime = "1 month"`, in days. -/
def maxRevisitTimeDays : Nat := 30

/-- `maxRedirects = 5`. -/
def maxRedirects : Nat := 5

/-- `crawlerUserAgent = "elektito/gemplex"`. -/
def crawlerUserAgent : String := "elektito/gemplex"

/-! ### C2: flusher persistence of a 2x visit (part_004, `updateDbSuccessfulVisit`)

The `urls` row fields touched by the update, and the `contents` table as an
association of row ids to content hashes.  `upsertContent` models the
`insert ... on conflict (hash) do update set hash = excluded.hash returning id`
statement: on a hash collision the existing row id is returned. -/

structure UrlRow where
  contentId : Option Nat
  retryDays : Option Nat
  statusCode : Int
  error : Option String
  lastVisited : Option Nat
  deriving Repr, DecidableEq

structure ContentsTable where
  rows : List (Nat × String)
  nextId : Nat
  deriving Repr, DecidableEq

def upsertContent (t : ContentsTable) (hash : String) : Nat × ContentsTable :=
  match t.rows.find? (fun r => r.2 == hash) with
  | some r => (r.1, t)
  | none => (t.nextId, ⟨(t.nextId, hash) :: t.rows, t.nextId + 1⟩)

/-- The `retry_time` expression of the successful-visit UPDATE:
`case when content_id = $1 then least(retry_time + '2 days', '1 month')
 else '2 days' end`.
SQL `NULL = $1` is not true, so a NULL `content_id` takes the else branch;
Postgres `LEAST` ignores NULL arguments, so a NULL `retry_time` in the
then-branch yields `1 month`. -/
def successRetryDays (oldContentId : Option Nat) (newContentId : Nat)
    (oldRetry : Option Nat) : Option Nat :=
  if oldContentId = some newContentId then
    match oldRetry with
    | some r => some (min (r + revisitTimeIncrementNoChangeDays) maxRevisitTimeDays)
    | none => some maxRevisitTimeDays
  else
    some revisitTimeAfterChangeDays

structure CrawlDbState where
  contents : ContentsTable
  row : UrlRow
  deriving Repr, DecidableEq

/-- The row mutation performed by `updateDbSuccessfulVisit` for a 2x visit with
no parse error: upsert the content row by hash, then update the URL row
(`last_visited = now(), content_id = $1, error = null, status_code = $2`,
 and the `retry_time` case expression). -/
def updateDbSuccessfulVisit (st : CrawlDbState) (contentHash : String)
    (statusCode : Int) (now : Nat) : CrawlDbState :=
  let upserted := upsertContent st.contents contentHash
  { contents := upserted.2
    row := { st.row with
      lastVisited := some now
      contentId := some upserted.1
      error := none
      statusCode := statusCode
      retryDays := successRetryDays st.row.contentId upserted.1 st.row.retryDays } }

/-! ### C4: robots.txt parsing (part_004, `fetchRobotsRules`, parsing loop) -/

/-- The user-agent tokens this crawler answers to (the `uaLoop` switch cases). -/
def uaAppliesToUs (ua : String) : Bool :=
  ua == "*" || ua == crawlerUserAgent || ua == "crawler" || ua == "indexer" ||
    ua == "researcher"

structure RobotsParseState where
  curUserAgents : List String
  readingUserAgents : Bool
  prefixes : List String
  deriving Repr, DecidableEq

/-- One iteration of the line loop in `fetchRobotsRules`:
comments are skipped; a `User-agent:` line (case-insensitive directive,
strictly longer than the directive) extends the current user-agent run,
starting a new run if the previous line was not a user-agent line; a
`Disallow:` line ends the run and, when some current user-agent applies to us
and the trimmed value is non-empty, appends the value to the prefix list.
Lines are character lists; Go indexes bytes, but for the 11/9-byte ASCII
directive comparisons byte and character indexing coincide exactly. -/
def robotsLine (st : RobotsParseState) (line : List Char) : RobotsParseState :=
  if line.take 1 = ['#'] then st
  else if line.length > 11 ∧ lowerList (line.take 11) = "user-agent:".toList then
    let cur := if st.readingUserAgents then st.curUserAgents else []
    { st with
      curUserAgents := cur ++ [String.mk (trimSpaceList (line.drop 11))]
      readingUserAgents := true }
  else if line.length > 9 ∧ lowerList (line.take 9) = "disallow:".toList then
    let pfx := String.mk (trimSpaceList (line.drop 9))
    { st with
      readingUserAgents := false
      prefixes :=
        if st.curUserAgents.any uaAppliesToUs && pfx != "" then
          st.prefixes ++ [pfx]
        else st.prefixes }
  else st

/-- The parsing part of `fetchRobotsRules`: split the body on newlines and run
the line loop with initial state `curUserAgents = ["*"]`,
`readingUserAgents = true`, empty prefix list. -/
def fetchRobotsRulesParse (text : String) : List String :=
  ((splitOnChar '\n' text.toList).foldl robotsLine ⟨["*"], true, []⟩).prefixes

/-! ### C1: seeder robots cache (part_004, `seeder`, `getOrFetchRobotsPrefixes`)

The seeder keeps `robotsCache : map[string]RobotsRecord` (host → prefixes +
validity time).  The store lookup (`getRobotsPrefixesFromDb`) and the network
fetch (`fetchRobotsRules`) are abstracted by their possible outcomes; the
returned `consultedDb`/`fetched` flags record which of the two side-effecting
calls the control flow reached.  Time instants are Nat; `time.Before` is
strict `<`.  Cached records are only ever inserted from the store branch,
which stores a nil error, so the record's `err` field is omitted. -/

structure RobotsRecord where
  prefixes : List String
  validUntil : Nat
  deriving Repr, DecidableEq

/-- Outcomes of `getRobotsPrefixesFromDb`:
`rows` = prefixes present with their `robots_valid_until`;
`backoff` = `robots_last_visited + robots_retry_time` is in the future
(`ErrRobotsBackoff`); `noPrefixes` = row exists but `robots_prefixes` is NULL;
`noRow` = no hosts row (`sql.ErrNoRows` is returned to the caller). -/
inductive DbRobots where
  | noRow
  | backoff
  | noPrefixes
  | rows (prefixes : List String) (validUntil : Nat)
  deriving Repr, DecidableEq

/-- Outcomes of `fetchRobotsRules`: parsed prefixes, a code-44 slowdown, or a
fetch error (permanent or transient network failure). -/
inductive FetchRobots where
  | ok (prefixes : List String)
  | slowdown (meta : String)
  | fail (permanent : Bool)
  deriving Repr, DecidableEq

structure RobotsLookup where
  /-- `some prefixes` when the call returns prefixes with a nil error;
  `none` when it returns an error (robots backoff, cancellation, …). -/
  result : Option (List String)
  cache : List (String × RobotsRecord)
  consultedDb : Bool
  fetched : Bool
  deriving Repr, DecidableEq

/-- The part of `getOrFetchRobotsPrefixes` after the in-memory cache check:
consult the store; on success insert into the cache and return; on backoff
return the error; otherwise fall through to fetching robots.txt (whose
store-side bookkeeping is not modelled here). -/
def robotsFromDbOrFetch (cache : List (String × RobotsRecord)) (host : String)
    (db : DbRobots) (fetch : FetchRobots) : RobotsLookup :=
  match db with
  | .rows ps vu => ⟨some ps, (host, ⟨ps, vu⟩) :: cache, true, false⟩
  | .backoff => ⟨none, cache, true, false⟩
  | .noRow | .noPrefixes =>
    match fetch with
    | .ok ps => ⟨some ps, cache, true, true⟩
    | .slowdown _ => ⟨none, cache, true, true⟩
    | .fail _ => ⟨none, cache, true, true⟩

/-- `getOrFetchRobotsPrefixes` (part_004 lines 729-772).  The in-memory cache
check is translated verbatim: on a hit whose `validUntil` is before now
(`hit.validUntil.Before(time.Now())`) the cached prefixes are returned
directly; on any other hit the entry is deleted and the store (and possibly
the network) is consulted. -/
def getOrFetchRobotsPrefixes (cache : List (String × RobotsRecord)) (now : Nat)
    (host : String) (db : DbRobots) (fetch : FetchRobots) : RobotsLookup :=
  match cache.find? (fun e => e.1 == host) with
  | some entry =>
    if entry.2.validUntil < now then
      ⟨some entry.2.prefixes, cache, false, false⟩
    else
      robotsFromDbOrFetch (cache.filter (fun e => !(e.1 == host))) host db fetch
  | none => robotsFromDbOrFetch cache host db fetch

/-! ### C3: redirect handling (part_004, `readGemini`, `visitor`, `flusher`)

`readGemini` is embedded with the server abstracted as a function from URL
strings to the (second) response, and `gparse.NormalizeUrl` on the redirect
target abstracted as a `norm` parameter (`none` = normalization error, in
which case Go falls back to the raw target).  The redirect loop increments
`redirs` and errors out when `redirs == maxRedirects` after the increment;
the structural `fuel` argument starts at `maxRedirects` and always stays
equal to `maxRedirects - redirs`, so the fuel-zero branch is unreachable. -/

inductive GemResp where
  | reply (code : Int) (meta : String) (body : String)
  | netError (msg : String)
  deriving Repr, DecidableEq

structure ReadResult where
  body : String
  code : Int
  meta : String
  finalUrl : String
  error : Option String
  deriving Repr, DecidableEq

def readGeminiAux (server : String → GemResp) (norm : String → Option String) :
    Nat → String → String → Nat → ReadResult
  | 0, _, fu, _ => ⟨"", 0, "", fu, some "Too many redirects"⟩
  | fuel + 1, u, fu, redirs =>
    match server u with
    | .netError msg => ⟨"", 0, "", fu, some msg⟩
    | .reply code meta body =>
      if Int.tdiv code 10 = 2 then
        if meta.toList.take 5 = "text/".toList then ⟨body, code, meta, fu, none⟩
        else ⟨"", code, meta, fu, some ("Non-text doc: " ++ meta)⟩
      else if Int.tdiv code 10 = 3 then
        if redirs + 1 = maxRedirects then
          ⟨"", code, meta, fu, some "Too many redirects"⟩
        else
          let target := meta
          readGeminiAux server norm fuel target ((norm target).getD target)
            (redirs + 1)
      else ⟨body, code, meta, fu, none⟩

/-- `readGemini`: request `u`, following redirects as above.  The TOFU
double-request is not visible here because the abstract server is a function
(both requests receive the same response). -/
def readGemini (server : String → GemResp) (norm : String → Option String)
    (u : String) : ReadResult :=
  readGeminiAux server norm maxRedirects u u 0

/-- The fields of a `VisitResult` the flusher dispatches on. -/
structure VisitResultM where
  url : String
  statusCode : Int
  meta : String
  error : Option String
  banned : Bool
  deriving Repr, DecidableEq

/-- How `visitor` turns a `readGemini` outcome into a `VisitResult`:
an error yields `statusCode = -1` with the error; a 2x response yields the
code with a parse outcome (`parseError` stands for `gparse.ParsePage`'s
error); any other code yields a synthesized `STATUS:`/`META:` error. -/
def visitorWrap (urlStr : String) (r : ReadResult) (parseError : Option String) :
    VisitResultM :=
  match r.error with
  | some e => ⟨urlStr, -1, r.meta, some e, false⟩
  | none =>
    if Int.tdiv r.code 10 = 2 then ⟨urlStr, r.code, r.meta, parseError, false⟩
    else ⟨urlStr, r.code, r.meta,
      some ("STATUS: " ++ toString r.code ++ " META: " ++ r.meta), false⟩

/-- The branches of the flusher's switch, in source order. -/
inductive FlushAction where
  | successfulVisit
  | slowDown
  | permanentError
  | banned
  | tempError
  deriving Repr, DecidableEq

/-- The flusher's dispatch (part_004 lines 405-423).  Go integer division
truncates toward zero, which is `Int.tdiv`. -/
def flusherAction (r : VisitResultM) : FlushAction :=
  if Int.tdiv r.statusCode 10 = 2 ∧ r.error = none then .successfulVisit
  else if r.statusCode = 44 then .slowDown
  else if Int.tdiv r.statusCode 10 = 5 then .permanentError
  else if Int.tdiv r.statusCode 10 = 1 then .permanentError
  else if r.banned then .banned
  else .tempError

/-- The `retry_time` expression of `updateDbTempError`:
`case when retry_time is null then '1 day' else least(retry_time * 2, '1 month') end`. -/
def tempErrorRetryDays : Option Nat → Option Nat
  | none => some tempErrorMinRetryDays
  | some r => some (min (r * 2) maxRevisitTimeDays)

/-- A server hosting a redirect chain: URLs are `""`, `"a"`, `"aa"`, …; the
URL of length `i < n` redirects (code 30) to the URL of length `i + 1`, and
the URL of length `n` replies success with a gemtext body. -/
def chainUrl (i : Nat) : String := String.mk (List.replicate i 'a')

def chainServer (n : Nat) (u : String) : GemResp :=
  if u.length < n then .reply 30 (chainUrl (u.length + 1)) ""
  else .reply 20 "text/gemini" "hello"

/-! ### C7: PageRank (cmd/pagerank/main.go, `pagerank`)

The float64 arithmetic is embedded over ℚ (every concrete value appearing in
the theorems below is computed exactly by float64 too, and the key-set
divergence established is independent of rounding).  Go map iteration order
is arbitrary; the model fixes first-appearance order for the node list, which
does not affect any value (sums and max are commutative) and only fixes the
order of the returned association list.  The convergence loop gets a fuel
argument; `none` means the fuel ran out before `diff ≤ epsilon`. -/

namespace pagerank

structure Link where
  src : Int
  dst : Int
  deriving Repr, DecidableEq

def beta : ℚ := 85 / 100

def epsilon : ℚ := 1 / 10000

/-- The set of all nodes (`nodes[link.src] = true; nodes[link.dst] = true`
over all links, self-links included), in first-appearance order. -/
def nodesOf (links : List Link) : List Int :=
  (links.flatMap (fun l => [l.src, l.dst])).dedup

/-- `outDegree[link.src] += 1` over all links — self-links included. -/
def outDegree (links : List Link) (n : Int) : ℚ :=
  ((links.filter (fun l => l.src == n)).length : ℚ)

/-- The redistribution loop of one iteration:
`newRanks[link.dst] += beta * (ranks[link.src] / outDegree[link.src])`,
skipping links with `link.src == link.dst` (the `// ignore self-links`
branch). -/
def redistribute (links : List Link) (ranks : Int → ℚ) (outDeg : Int → ℚ)
    (acc : Int → ℚ) : Int → ℚ :=
  match links with
  | [] => acc
  | l :: rest =>
    if l.src = l.dst then redistribute rest ranks outDeg acc
    else redistribute rest ranks outDeg
      (fun d => if d = l.dst then acc d + beta * (ranks l.src / outDeg l.src) else acc d)

/-- One iteration of the convergence loop: redistribute, add the uniform
share of the leaked mass `(1 - total) / len(nodes)` to every node, and
compute the L1 difference against the previous ranks. -/
def iterStep (links : List Link) (nodes : List Int) (ranks : Int → ℚ) :
    (Int → ℚ) × ℚ :=
  let newR := redistribute links ranks (outDegree links) (fun _ => 0)
  let total := (nodes.map newR).sum
  let leak := (1 - total) / (nodes.length : ℚ)
  let newR2 := fun n => newR n + leak
  let diff := (nodes.map (fun n => |ranks n - newR2 n|)).sum
  (newR2, diff)

/-- The `for i := 1; diff > epsilon; i++` loop.  `diff` starts at
`math.MaxFloat64 > epsilon`, so the body always runs at least once; the model
therefore re-checks the condition only after each iteration. -/
def pagerankLoop (links : List Link) (nodes : List Int) :
    Nat → (Int → ℚ) → Option (Int → ℚ)
  | 0, _ => none
  | fuel + 1, ranks =>
    let step := iterStep links nodes ranks
    if step.2 > epsilon then pagerankLoop links nodes fuel step.1
    else some step.1

/-- `pagerank`: empty edge list returns the empty map; otherwise initialize
every node to `1/N`, iterate to convergence, and normalize by the maximum
rank (computed with a running max starting at `0.0`). -/
def pagerank (fuel : Nat) (links : List Link) : Option (List (Int × ℚ)) :=
  if links = [] then some []
  else
    let nodes := nodesOf links
    let init : Int → ℚ := fun _ => 1 / (nodes.length : ℚ)
    match pagerankLoop links nodes fuel init with
    | none => none
    | some r =>
      let m := (nodes.map r).foldl max 0
      some (nodes.map (fun n => (n, r n / m)))

/-- The edge list with self-loop edges removed, as in the claim. -/
def selfFree (links : List Link) : List Link :=
  links.filter (fun l => !(l.src == l.dst))

end pagerank

/-! ### C8: ping-pong indexer startup and rebuild (part_003, `loadInitialIndex`, `indexDb`)

Each slot's on-disk condition is abstracted as: whether `os.Stat` succeeds
(`onDisk`), whether `gsearch.OpenIndex` succeeds (`opens`), and what
`DocCount` returns (`none` = error).  `loadInitialIndex` is sequential: in
the `builtFreshPing` outcome the fresh ping index is created and `IndexDb`
has run to completion before the function returns (and hence before the
search daemon, which gates on the same `loadIndexOnce`, proceeds). -/

namespace indexer

inductive Slot where
  | ping
  | pong
  deriving Repr, DecidableEq

def other : Slot → Slot
  | .ping => .pong
  | .pong => .ping

structure SlotState where
  onDisk : Bool
  opens : Bool
  docCount : Option Nat
  deriving Repr, DecidableEq

inductive InitOutcome where
  | selected (s : Slot)
  | builtFreshPing
  | panicked
  deriving Repr, DecidableEq

/-- `loadInitialIndex`, branch for branch: with both slots on disk, open
errors decide first, then `DocCount` errors, then `pingCount > pongCount`
picks ping, else pong; with exactly one slot on disk, it is opened (a failed
open panics via `utils.PanicOnErr`); with no slot on disk, a fresh ping index
is built synchronously. -/
def loadInitialIndex (ping pong : SlotState) : InitOutcome :=
  if ping.onDisk ∧ pong.onDisk then
    if ping.opens ∧ ¬pong.opens then .selected .ping
    else if pong.opens ∧ ¬ping.opens then .selected .pong
    else if ¬ping.opens ∧ ¬pong.opens then .panicked
    else
      match ping.docCount, pong.docCount with
      | some _, none => .selected .ping
      | none, some _ => .selected .pong
      | none, none => .panicked
      | some pc, some qc => if pc > qc then .selected .ping else .selected .pong
  else if ping.onDisk then
    if ping.opens then .selected .ping else .panicked
  else if pong.onDisk then
    if pong.opens then .selected .pong else .panicked
  else .builtFreshPing

/-- `indexDb`: the rebuild targets the slot that is not `curIdx` and, after
`idx.Swap`, that slot becomes the live one (`curIdx = newIdx`). -/
def indexDb (cur : Slot) : Slot :=
  if cur = .ping then .pong else .ping

end indexer

/-! ### C9/C10: search daemon request handling (cmd/gemplex/search.go,
`handleConn`/`handleSearchRequest`; part_020, `SearchPages`)

The JSON codec (Go stdlib, outside this repository) is abstracted at the
value level: a request line is either `malformed` (json.Unmarshal fails on
`TypedRequest`) or an object carrying the optional `t` field (absent ⇒ the
pre-set default `"search"` survives), a `fieldsOk` flag (whether the second
unmarshal into the search request succeeds), the `q` string (absent ⇒ Go
zero value `""`), and the optional `page` number (absent ⇒ the pre-set
default 1).  The bleve index (external library) is modelled from the spec:
its contract used here is that the returned hits honour `From` and
`Size = PageSize`; a document matches when the query occurs in its content
or title, and must-not terms exclude the kinds email/rfc/irc. -/

namespace searchd

def PageSize : Nat := 15

inductive ReqLine where
  | malformed
  | obj (t : Option String) (fieldsOk : Bool) (q : String) (page : Option Int)
  deriving Repr, DecidableEq

structure PageDocM where
  url : String
  title : String
  content : String
  kind : String
  deriving Repr, DecidableEq

def hasPrefixL : List Char → List Char → Bool
  | _, [] => true
  | [], _ :: _ => false
  | c :: cs, d :: ds => c == d && hasPrefixL cs ds

def containsSub (needle : List Char) : List Char → Bool
  | [] => hasPrefixL [] needle
  | c :: rest => hasPrefixL (c :: rest) needle || containsSub needle rest

/-- Modelled from the spec: the boolean bleve query built by `SearchPages`
(should-match on Content, should-match on Title, must-not on the kinds
`email`, `rfc`, `irc`); the bleve library itself is not under src/. -/
def bleveMatches (query : String) (d : PageDocM) : Bool :=
  (containsSub query.toList d.content.toList ||
      containsSub query.toList d.title.toList) &&
    !(d.kind == "email" || d.kind == "rfc" || d.kind == "irc")

/-- Modelled from the spec: `idx.Search` returns the matching documents
(in scoring order, abstracted as index order) honouring `From` and `Size`. -/
def bleveSearchHits (docs : List PageDocM) (query : String)
    (fromIdx size : Nat) : List PageDocM :=
  ((docs.filter (bleveMatches query)).drop fromIdx).take size

inductive Resp where
  | err (msg : String)
  | pageResults (hits : List PageDocM)
  | imgRow (raw : String)
  deriving Repr, DecidableEq

/-- `errorResponse`: `json.Marshal` of `struct{ Err string }` with tag
`json:"err"` (none of the messages used contains JSON-escapable characters),
followed by `\r\n`. -/
def errorResponse (msg : String) : String :=
  "\x7b\"err\":\"" ++ msg ++ "\"\x7d\r\n"

/-- `SearchPages` (part_020): reject `page < 1`; otherwise query the index
with `Size = PageSize` and `From = (page-1)*Size`. -/
def SearchPages (query : String) (page : Int) (docs : List PageDocM) :
    Except String (List PageDocM) :=
  if page < 1 then
    .error "Invalid page number (needs to be greater than or equal to 1)"
  else
    .ok (bleveSearchHits docs query ((page - 1).toNat * PageSize) PageSize)

/-- `handleSearchRequest`: a failed unmarshal yields the `bad request` error
response; an empty query yields the `no query` error response; a search
error is wrapped in an error response; otherwise the marshalled results. -/
def handleSearchRequest (fieldsOk : Bool) (q : String) (page : Option Int)
    (docs : List PageDocM) : Resp :=
  if !fieldsOk then .err "bad request"
  else if q = "" then .err "no query"
  else
    match SearchPages q (page.getD 1) docs with
    | .error e => .err e
    | .ok hits => .pageResults hits

/-- What `handleConn` writes on the connection before closing it. -/
inductive Written where
  | nothing
  | raw (s : String)
  | resp (r : Resp)
  deriving Repr, DecidableEq

/-- `handleConn`: a request line that fails to unmarshal gets the plain bytes
`bad request` (no JSON, no newline); otherwise dispatch on the `t` field
(default `"search"`); the branches write their response followed by `\n`
(`Written.resp`); the default branch constructs
`errorResponse("unknown request type")` but `return`s before the write, so
nothing is written.  The randimg/getimg handlers read the images table; their
responses are abstracted as parameters. -/
def handleConn (req : ReqLine) (docs : List PageDocM)
    (randimgResp getimgResp : Resp) : Written :=
  match req with
  | .malformed => .raw "bad request"
  | .obj t fieldsOk q page =>
    match t.getD "search" with
    | "search" => .resp (handleSearchRequest fieldsOk q page docs)
    | "randimg" => .resp randimgResp
    | "getimg" => .resp getimgResp
    | _ => .nothing

end searchd

/-! ### C5: gemtext parsing and title selection (pkg/gparse/gparse.go, `ParseGemtext`)

Lines are character lists (Go's byte indexing and the model's character
indexing coincide on the ASCII delimiters involved).  The regexes are
translated to their leftmost-first matching semantics:
`headingRe = ^(#+) *(?P<heading>.+) *$` — on a line of k ≥ 2 hashes and
nothing else, backtracking yields level k-1 with text `#`;
`linkRe = ^=> *(?P<linkurl>.*?)(?: +(?P<linktext>.+))? *$`;
`preRe = ^``` *(?P<prealt>.*)? *$`.
The URL pipeline applied to each link target (`url.Parse`,
`ResolveReference`, `NormalizeUrl`, the gemini-scheme filter) is factored
out as the `resolveLink` parameter that returns `none` when the link is
dropped; the title-selection property proved below holds for every behaviour
of that pipeline.  `unicode.IsLetter`/`IsDigit` are modelled on ASCII; the
float comparisons `n/len > 0.6` and `avg > 7` are modelled as the exact
`5*n > 3*len` and `sum ≤ 7*count`, which agree with the float64 evaluation
for every string shorter than ~10^15 bytes (the nearest ratios straddling
the thresholds differ from them by at least `1/(5*len)`, far above the
rounding error of the float division, and the exact-threshold cases, which
float64 represents exactly at these magnitudes, are not greater). -/

namespace gparse

structure Link where
  url : String
  text : String
  deriving Repr, DecidableEq

structure Heading where
  level : Nat
  text : String
  deriving Repr, DecidableEq

/-- The `Page` fields produced by `ParseGemtext` (`Lang` and `Kind` are only
set later by `ParsePage`). -/
structure Page where
  text : String
  links : List Link
  headings : List Heading
  title : String
  deriving Repr, DecidableEq

def isAsciiLetterOrDigit (c : Char) : Bool :=
  ('a' ≤ c && c ≤ 'z') || ('A' ≤ c && c ≤ 'Z') || ('0' ≤ c && c ≤ '9')

/-- Go `len` of the UTF-8 encoding of the characters. -/
def utf8Len (l : List Char) : Nat :=
  (l.map Char.utf8Size).sum

/-- `isMostlyAlphanumeric`: letter/digit code points over byte length > 0.6;
empty string is false. -/
def isMostlyAlphanumericL (l : List Char) : Bool :=
  if l = [] then false
  else 5 * (l.filter isAsciiLetterOrDigit).length > 3 * utf8Len l

def isMostlyAlphanumeric (s : String) : Bool :=
  isMostlyAlphanumericL s.toList

def splitOnPred (p : Char → Bool) : List Char → List (List Char)
  | [] => [[]]
  | c :: rest =>
    let r := splitOnPred p rest
    if p c then [] :: r
    else
      match r with
      | h :: t => (c :: h) :: t
      | [] => [[c]]

/-- `strings.Fields`: maximal runs of non-whitespace characters. -/
def fieldsGo (l : List Char) : List (List Char) :=
  (splitOnPred isSpaceChar l).filter (· ≠ [])

/-- `looksLikeText`: mostly alphanumeric, at least one word, and mean word
byte-length at most 7 (`avg > 7` fails).  The `maxLen` variable in the Go
code is computed but never used. -/
def looksLikeTextL (l : List Char) : Bool :=
  isMostlyAlphanumericL l &&
    (let ws := fieldsGo l
     !ws.isEmpty && (ws.map utf8Len).sum ≤ 7 * ws.length)

/-- `strings.TrimRight(line, " ")` — spaces only. -/
def trimRightSpaces (l : List Char) : List Char :=
  (l.reverse.dropWhile (· == ' ')).reverse

/-- The `prealt` capture of `preRe`: everything after the fence and the
following spaces (the line is already right-trimmed). -/
def preAlt (line : List Char) : List Char :=
  (line.drop 3).dropWhile (· == ' ')

/-- `headingRe` with leftmost-first submatches: level = number of leading
hashes and text = the rest with leading spaces stripped when that rest is
non-empty; a line consisting of k ≥ 2 hashes alone matches with level k-1
and text `#` (the greedy `#+` backtracks one hash into `.+`). -/
def headingMatch (line : List Char) : Option (Nat × List Char) :=
  let hashes := (line.takeWhile (· == '#')).length
  if hashes = 0 then none
  else
    let rest := (line.dropWhile (· == '#')).dropWhile (· == ' ')
    if rest ≠ [] then some (hashes, rest)
    else if hashes ≥ 2 then some (hashes - 1, ['#'])
    else none

/-- `linkRe` with leftmost-first submatches: after `=>` and spaces, the URL
is the first space-free token and the text is what follows the next space
run (empty when absent); the line is already right-trimmed. -/
def linkMatch (line : List Char) : Option (List Char × List Char) :=
  if line.take 2 = ['=', '>'] then
    let rest := (line.drop 2).dropWhile (· == ' ')
    let url := rest.takeWhile (· != ' ')
    let text := (rest.dropWhile (· != ' ')).dropWhile (· == ' ')
    some (url, text)
  else none

structure GemtextState where
  s : List Char
  firstLine : List Char
  inPre : Bool
  preText : List Char
  headings : List Heading
  links : List Link
  deriving Repr, DecidableEq

/-- One iteration of the line loop of `ParseGemtext`: right-trim spaces;
toggle preformatted mode on a fence (emitting the alt text when opening and
the accumulated block when closing, if it looks like prose); inside a
preformatted block accumulate mostly-alphanumeric lines; drop quote lines;
record headings; record links whose target survives the URL pipeline
(`resolveLink`), with a leading `//` in the raw target coerced to `/`;
append other non-empty lines, remembering the first mostly-alphanumeric one. -/
def gemtextLine (resolveLink : String → Option String) (st : GemtextState)
    (rawLine : List Char) : GemtextState :=
  let line := trimRightSpaces rawLine
  if line.take 3 = "```".toList then
    let st1 :=
      if ¬st.inPre ∧ preAlt line ≠ [] then
        { st with s := st.s ++ preAlt line ++ ['\n'] }
      else st
    let st2 := if ¬st1.inPre then { st1 with preText := [] } else st1
    let st3 :=
      if st2.inPre ∧ looksLikeTextL st2.preText then
        { st2 with s := st2.s ++ st2.preText }
      else st2
    { st3 with inPre := ¬st3.inPre }
  else if st.inPre then
    if isMostlyAlphanumericL line then
      { st with preText := st.preText ++ line ++ ['\n'] }
    else st
  else if line.take 1 = ['>'] then st
  else
    match headingMatch line with
    | some lt =>
      { st with
        headings := st.headings ++ [⟨lt.1, String.mk lt.2⟩]
        s := st.s ++ lt.2 ++ ['\n'] }
    | none =>
      match linkMatch line with
      | some ut =>
        let url1 := if ut.1.take 2 = ['/', '/'] then ut.1.drop 1 else ut.1
        match resolveLink (String.mk url1) with
        | none => st
        | some u =>
          let st1 := { st with links := st.links ++ [⟨u, String.mk ut.2⟩] }
          if ut.2 ≠ [] then { st1 with s := st1.s ++ ut.2 ++ ['\n'] } else st1
      | none =>
        if line ≠ [] then
          let st1 :=
            if st.firstLine = [] ∧ isMostlyAlphanumericL line then
              { st with firstLine := line }
            else st
          { st1 with s := st1.s ++ line ++ ['\n'] }
        else st

/-- The heading predicate of the title loop's break condition. -/
def isTitleHeading (h : Heading) : Bool :=
  decide (h.level = 1) && isMostlyAlphanumeric h.text

/-- The title loop over `result.Headings`: set the title to each heading's
text in turn, stopping at the first level-1 mostly-alphanumeric heading. -/
def titleLoop (title : String) : List Heading → String
  | [] => title
  | h :: rest => if isTitleHeading h then h.text else titleLoop h.text rest

/-- The fall-back over links: the first link text that is mostly
alphanumeric (empty when none is). -/
def firstAlnumLinkText : List Link → String
  | [] => ""
  | l :: rest => if isMostlyAlphanumeric l.text then l.text else firstAlnumLinkText rest

/-- The title selection of `ParseGemtext` (lines 205-223): the heading loop,
then the first mostly-alphanumeric plain line, then the link texts. -/
def selectTitle (headings : List Heading) (firstLine : List Char)
    (links : List Link) : String :=
  let t0 := titleLoop "" headings
  let t1 := if t0 = "" then String.mk firstLine else t0
  if t1 = "" then firstAlnumLinkText links else t1

/-- `strings.LastIndex(l, " ")`. -/
def lastSpaceIdx (l : List Char) : Option Nat :=
  match l.reverse.findIdx? (· == ' ') with
  | none => none
  | some j => some (l.length - 1 - j)

/-- `shortenTitleIfNeeded`: titles longer than 72 bytes are cut at 72,
trimmed back to the preceding space when the cut lands mid-word within the
last 10 characters, and get `...` appended.  (Byte indexing coincides with
character indexing on ASCII titles.) -/
def shortenTitleIfNeeded (title : String) : String :=
  let l := title.toList
  if utf8Len l ≤ 72 then title
  else
    let t := l.take 72
    let t1 :=
      if t.getLast? = some ' ' then trimSpaceList t
      else
        match lastSpaceIdx t with
        | some idx => if 0 < idx ∧ t.length - 10 < idx then t.take idx else t
        | none => t
    String.mk (t1 ++ "...".toList)

/-- `ParseGemtext`: run the line loop over the newline-split input, then
select and post-process the title. -/
def ParseGemtext (resolveLink : String → Option String) (text : String) : Page :=
  let st := (splitOnChar '\n' text.toList).foldl (gemtextLine resolveLink)
    ⟨[], [], false, [], [], []⟩
  let title := shortenTitleIfNeeded
    (String.mk (trimSpaceList (selectTitle st.headings st.firstLine st.links).toList))
  { text := String.mk st.s
    links := st.links
    headings := st.headings
    title := title }

end gparse

/-! ### C6: URL normalization (pkg/gparse/gparse.go, `NormalizeUrl`)

A `url.URL` value is modelled by its components; the `path` carries its
percent-escapes explicitly.  The repository code strips the default gemini
port (checking `u.Scheme == "gemini" && u.Port() == "1965"` before purell
runs) and turns an empty normalized path into `/`; the purell pass between
the two (the purell library is not under src/) is modelled from the spec's
normalization list: lower-case scheme and host, unnecessary escapes decoded
and necessary escapes applied (hex uppercased), dot-segments removed,
duplicate slashes collapsed, empty port and query separators removed.
`wellFormed` records the invariants Go's `url.Parse` guarantees for every
URL value the program feeds to `NormalizeUrl`: the scheme is already
lower-case (url.Parse lowercases it) and every `%` in the path starts a
well-formed escape (url.Parse rejects malformed ones). -/

namespace gparse

/-- RFC 3986 unreserved characters (ASCII letters, digits, `-._~`). -/
def isUnreservedChar (c : Char) : Bool :=
  isAsciiLetterOrDigit c || c == '-' || c == '.' || c == '_' || c == '~'

def isUnreservedByte (v : Nat) : Bool :=
  v < 128 && isUnreservedChar (Char.ofNat v)

/-- Characters allowed raw in a path: unreserved, sub-delims, `:`, `@`, and
the separator `/`; anything else gets percent-encoded. -/
def pathAllowedRaw (c : Char) : Bool :=
  isUnreservedChar c || c == '!' || c == '$' || c == '&' || c == Char.ofNat 39 ||
    c == '(' || c == ')' || c == '*' || c == '+' || c == ',' || c == ';' ||
    c == '=' || c == ':' || c == '@' || c == '/'

def hexDigitVal (c : Char) : Option Nat :=
  if 48 ≤ c.toNat ∧ c.toNat ≤ 57 then some (c.toNat - 48)
  else if 97 ≤ c.toNat ∧ c.toNat ≤ 102 then some (c.toNat - 87)
  else if 65 ≤ c.toNat ∧ c.toNat ≤ 70 then some (c.toNat - 55)
  else none

def isHexDigit (c : Char) : Bool :=
  (hexDigitVal c).isSome

def asciiUpper (c : Char) : Char :=
  if 97 ≤ c.toNat ∧ c.toNat ≤ 122 then Char.ofNat (c.toNat - 32) else c

def toUpperHexDigit (v : Nat) : Char :=
  if v < 10 then Char.ofNat (48 + v) else Char.ofNat (55 + v)

/-- The UTF-8 encoding of a character, as byte values. -/
def utf8Bytes (c : Char) : List Nat :=
  let v := c.toNat
  if v < 128 then [v]
  else if v < 2048 then [192 + v / 64, 128 + v % 64]
  else if v < 65536 then [224 + v / 4096, 128 + v / 64 % 64, 128 + v % 64]
  else [240 + v / 262144, 128 + v / 4096 % 64, 128 + v / 64 % 64, 128 + v % 64]

def escByte (b : Nat) : List Char :=
  ['%', toUpperHexDigit (b / 16), toUpperHexDigit (b % 16)]

/-- Modelled from the spec: "unnecessary escapes decoded" and "necessary
escapes applied" (purell's escape flags, with escape hex uppercased).
Escapes of unreserved bytes are decoded; other well-formed escapes are kept
with uppercase hex; raw characters not allowed in a path are percent-encoded
from their UTF-8 bytes; a malformed `%` is passed through unchanged. -/
def normEscapes : List Char → List Char
  | [] => []
  | c :: rest =>
    if c = '%' then
      match rest with
      | h1 :: h2 :: rest2 =>
        match hexDigitVal h1, hexDigitVal h2 with
        | some a, some b =>
          if isUnreservedByte (16 * a + b) then
            Char.ofNat (16 * a + b) :: normEscapes rest2
          else '%' :: asciiUpper h1 :: asciiUpper h2 :: normEscapes rest2
        | _, _ => '%' :: h1 :: h2 :: normEscapes rest2
      | tail => '%' :: normEscapes tail
    else
      if pathAllowedRaw c then c :: normEscapes rest
      else (utf8Bytes c).flatMap escByte ++ normEscapes rest

/-- Every `%` begins a two-hex-digit escape (guaranteed by `url.Parse`). -/
def escOkB : List Char → Bool
  | [] => true
  | c :: rest =>
    if c = '%' then
      match rest with
      | h1 :: h2 :: rest2 => isHexDigit h1 && isHexDigit h2 && escOkB rest2
      | _ => false
    else escOkB rest

/-- Escape normal form: every raw character is allowed in a path, and every
escape is uppercase hex of a byte that must stay encoded. -/
def escapedNF : List Char → Bool
  | [] => true
  | c :: rest =>
    if c = '%' then
      match rest with
      | h1 :: h2 :: rest2 =>
        isHexDigit h1 && isHexDigit h2 && h1 == asciiUpper h1 && h2 == asciiUpper h2 &&
          !isUnreservedByte
            (16 * (hexDigitVal h1).getD 0 + (hexDigitVal h2).getD 0) &&
          escapedNF rest2
      | _ => false
    else pathAllowedRaw c && escapedNF rest

def joinChar (sep : Char) : List (List Char) → List Char
  | [] => []
  | [s] => s
  | s :: rest => s ++ sep :: joinChar sep rest

def isDotSec (s : List Char) : Bool :=
  s = ['.'] || s = ['.', '.']

def lastIsDot (secs : List (List Char)) : Bool :=
  match secs.getLast? with
  | some s => isDotSec s
  | none => false

/-- The stack pass removing dot segments: `..` pops the last kept section,
`.` vanishes, everything else is kept. -/
def dotFreeFold (acc : List (List Char)) : List (List Char) → List (List Char)
  | [] => acc
  | s :: rest =>
    if s = ['.', '.'] then dotFreeFold acc.dropLast rest
    else if s = ['.'] then dotFreeFold acc rest
    else dotFreeFold (acc ++ [s]) rest

def riAux : List (List Char) → List (List Char)
  | [] => []
  | [s] => [s]
  | s :: rest => if s = [] then riAux rest else s :: riAux rest

/-- Duplicate slashes in the joined path correspond to empty interior
sections; collapsing them removes every empty section that is neither first
nor last. -/
def removeInteriorEmpties : List (List Char) → List (List Char)
  | [] => []
  | s :: rest => s :: riAux rest

/-- Modelled from the spec: "dot-segments removed, duplicate slashes
collapsed" (purell's corresponding flags) on the `/`-separated sections of
the path after escape normalization; a leading slash is reinstated when a
host is present, and a trailing slash when the final section was a dot
segment. -/
def normalizePathList (host : List Char) (p : List Char) : List Char :=
  if p = [] then []
  else
    let secs := (splitOnChar '/' p).map normEscapes
    let lastDot := lastIsDot secs
    let df := removeInteriorEmpties (dotFreeFold [] secs)
    let s := joinChar '/' df
    let s1 := if host ≠ [] ∧ s ≠ [] ∧ s.head? ≠ some '/' then '/' :: s else s
    if lastDot ∧ s1.getLast? ≠ some '/' then s1 ++ ['/'] else s1

structure GoUrl where
  scheme : String
  host : String
  port : Option String
  path : String
  query : Option String
  fragment : Option String
  deriving Repr, DecidableEq

def lowerStr (s : String) : String :=
  String.mk (lowerList s.toList)

/-- `NormalizeUrl`: the repo's gemini-default-port strip (before the purell
pass), the purell normalization pass, and the repo's empty-path-to-`/`
fix-up. -/
def NormalizeUrl (u : GoUrl) : GoUrl :=
  let u0 := if u.scheme = "gemini" ∧ u.port = some "1965" then
      { u with port := none }
    else u
  let scheme := lowerStr u0.scheme
  let host := lowerStr u0.host
  let path := String.mk (normalizePathList host.toList u0.path.toList)
  let port := if u0.port = some "" then none else u0.port
  let query := if u0.query = some "" then none else u0.query
  { scheme := scheme
    host := host
    port := port
    path := if path = "" then "/" else path
    query := query
    fragment := u0.fragment }

/-- The invariants `url.Parse` guarantees for every URL value reaching
`NormalizeUrl`: lower-case scheme, well-formed path escapes. -/
def wellFormed (u : GoUrl) : Prop :=
  u.scheme = lowerStr u.scheme ∧ escOkB u.path.toList = true

/-- `url.URL.String()` for URLs with an authority component. -/
def renderUrl (u : GoUrl) : String :=
  u.scheme ++ "://" ++ u.host ++
    (match u.port with
     | some p => ":" ++ p
     | none => "") ++
    u.path ++
    (match u.query with
     | some q => "?" ++ q
     | none => "") ++
    (match u.fragment with
     | some f => "#" ++ f
     | none => "")

end gparse

/-- Normal form of a path: what a second `normalizePathList` pass leaves
unchanged. -/
def pathNF (host q : List Char) : Prop :=
  q ≠ [] ∧
  (splitOnChar '/' q).map gparse.normEscapes = splitOnChar '/' q ∧
  gparse.dotFreeFold [] (splitOnChar '/' q) = splitOnChar '/' q ∧
  gparse.removeInteriorEmpties (splitOnChar '/' q) = splitOnChar '/' q ∧
  gparse.lastIsDot (splitOnChar '/' q) = false ∧
  (host = [] ∨ q.head? = some '/')


/-! Character-level lemmas for the URL normalization development (C6). -/

theorem char_toNat_ofNat {n : Nat} (h : n.isValidChar) : (Char.ofNat n).toNat = n := by
  rw [Char.ofNat, dif_pos h]
  rfl

theorem char_toNat_ofNat_lt {n : Nat} (h : n < 55296) : (Char.ofNat n).toNat = n :=
  char_toNat_ofNat (Or.inl h)

theorem asciiLower_idem (c : Char) : asciiLower (asciiLower c) = asciiLower c := by
  unfold asciiLower
  split_ifs with h1 h2
  · rw [char_toNat_ofNat_lt (by omega)] at h2
    omega
  · rfl
  · rfl

theorem lowerList_idem (l : List Char) : lowerList (lowerList l) = lowerList l := by
  unfold lowerList
  rw [List.map_map]
  exact List.map_congr_left fun c _ => asciiLower_idem c

theorem lowerStr_idem (s : String) : gparse.lowerStr (gparse.lowerStr s) = gparse.lowerStr s := by
  unfold gparse.lowerStr
  exact congrArg String.mk (lowerList_idem s.toList)

theorem hexDigitVal_asciiUpper (c : Char) :
    gparse.hexDigitVal (gparse.asciiUpper c) = gparse.hexDigitVal c := by
  unfold gparse.asciiUpper
  by_cases h : 97 ≤ c.toNat ∧ c.toNat ≤ 122
  · rw [if_pos h]
    have hv : (Char.ofNat (c.toNat - 32)).toNat = c.toNat - 32 :=
      char_toNat_ofNat_lt (by omega)
    unfold gparse.hexDigitVal
    rw [hv]
    by_cases h3 : 97 ≤ c.toNat ∧ c.toNat ≤ 102
    · rw [if_neg (by omega), if_neg (by omega), if_pos (by omega),
        if_neg (by omega), if_pos h3]
      congr 1
    · rw [if_neg (by omega), if_neg (by omega), if_neg (by omega),
        if_neg (by omega), if_neg h3, if_neg (by omega)]
  · rw [if_neg h]

theorem asciiUpper_idem (c : Char) :
    gparse.asciiUpper (gparse.asciiUpper c) = gparse.asciiUpper c := by
  unfold gparse.asciiUpper
  split_ifs with h1 h2
  · rw [char_toNat_ofNat_lt (by omega)] at h2
    omega
  · rfl
  · rfl

theorem isHexDigit_asciiUpper (c : Char) :
    gparse.isHexDigit (gparse.asciiUpper c) = gparse.isHexDigit c := by
  unfold gparse.isHexDigit
  rw [hexDigitVal_asciiUpper]

theorem toUpperHexDigit_toNat {v : Nat} (h : v < 16) :
    (gparse.toUpperHexDigit v).toNat = if v < 10 then 48 + v else 55 + v := by
  unfold gparse.toUpperHexDigit
  split_ifs with h1
  · exact char_toNat_ofNat_lt (by omega)
  · exact char_toNat_ofNat_lt (by omega)

theorem hexDigitVal_toUpperHexDigit {v : Nat} (h : v < 16) :
    gparse.hexDigitVal (gparse.toUpperHexDigit v) = some v := by
  unfold gparse.hexDigitVal
  rw [toUpperHexDigit_toNat h]
  by_cases h1 : v < 10
  · rw [if_pos h1, if_pos (by omega)]
    exact congrArg some (by omega)
  · rw [if_neg h1, if_neg (by omega), if_neg (by omega), if_pos (by omega)]
    exact congrArg some (by omega)

theorem isHexDigit_toUpperHexDigit {v : Nat} (h : v < 16) :
    gparse.isHexDigit (gparse.toUpperHexDigit v) = true := by
  unfold gparse.isHexDigit
  rw [hexDigitVal_toUpperHexDigit h]
  rfl

theorem toUpperHexDigit_le {v : Nat} (h : v < 16) :
    (gparse.toUpperHexDigit v).toNat ≤ 70 := by
  rw [toUpperHexDigit_toNat h]
  split_ifs <;> omega

theorem asciiUpper_toUpperHexDigit {v : Nat} (h : v < 16) :
    gparse.asciiUpper (gparse.toUpperHexDigit v) = gparse.toUpperHexDigit v := by
  unfold gparse.asciiUpper
  rw [if_neg]
  intro hc
  have := toUpperHexDigit_le h
  omega

theorem toUpperHexDigit_ne_slash {v : Nat} (h : v < 16) :
    gparse.toUpperHexDigit v ≠ '/' := by
  intro he
  have h47 : ('/' : Char).toNat = 47 := rfl
  have := congrArg Char.toNat he
  rw [toUpperHexDigit_toNat h, h47] at this
  split_ifs at this <;> omega

theorem pathAllowedRaw_of_unreserved {c : Char}
    (h : gparse.isUnreservedChar c = true) : gparse.pathAllowedRaw c = true := by
  simp [gparse.pathAllowedRaw, h]

theorem isUnreservedByte_ge_128 {v : Nat} (h : 128 ≤ v) :
    gparse.isUnreservedByte v = false := by
  unfold gparse.isUnreservedByte
  have hv : ¬v < 128 := by omega
  simp [hv]

theorem ofNat_unreserved_allowed {v : Nat} (h : gparse.isUnreservedByte v = true) :
    gparse.pathAllowedRaw (Char.ofNat v) = true ∧ Char.ofNat v ≠ '/' := by
  unfold gparse.isUnreservedByte at h
  rw [Bool.and_eq_true] at h
  obtain ⟨hv, hu⟩ := h
  refine ⟨pathAllowedRaw_of_unreserved hu, ?_⟩
  intro he
  rw [he] at hu
  exact absurd hu (by decide)

theorem charCodepoint_lt (c : Char) : c.toNat < 1114112 := by
  have h := c.valid
  rcases h with h | ⟨_, h⟩
  · calc c.toNat < 55296 := h
    _ < 1114112 := by omega
  · exact h

theorem utf8Bytes_lt_256 (c : Char) : ∀ b ∈ gparse.utf8Bytes c, b < 256 := by
  have hc := charCodepoint_lt c
  unfold gparse.utf8Bytes
  dsimp only
  split_ifs with h1 h2 h3 <;> intro b hb <;> simp at hb
  · omega
  · rcases hb with hb | hb <;> omega
  · rcases hb with hb | hb | hb <;> omega
  · rcases hb with hb | hb | hb | hb <;> omega

theorem utf8Bytes_not_unreserved {c : Char} (h : gparse.pathAllowedRaw c = false) :
    ∀ b ∈ gparse.utf8Bytes c, gparse.isUnreservedByte b = false := by
  unfold gparse.utf8Bytes
  dsimp only
  split_ifs with h1 h2 h3 <;> intro b hb <;> simp at hb
  · subst hb
    unfold gparse.isUnreservedByte
    rw [Char.ofNat_toNat]
    have hu : gparse.isUnreservedChar c = false := by
      cases hcu : gparse.isUnreservedChar c
      · rfl
      · exact absurd (pathAllowedRaw_of_unreserved hcu) (by simp [h])
    simp [hu]
  · rcases hb with hb | hb <;> subst hb <;> exact isUnreservedByte_ge_128 (by omega)
  · rcases hb with hb | hb | hb <;> subst hb <;> exact isUnreservedByte_ge_128 (by omega)
  · rcases hb with hb | hb | hb | hb <;> subst hb <;>
      exact isUnreservedByte_ge_128 (by omega)

theorem utf8Bytes_ne_nil (c : Char) : gparse.utf8Bytes c ≠ [] := by
  unfold gparse.utf8Bytes
  dsimp only
  split_ifs <;> simp


theorem escapedNF_cons_pct (h1 h2 : Char) (rest2 : List Char) :
    gparse.escapedNF ('%' :: h1 :: h2 :: rest2) =
      (gparse.isHexDigit h1 && gparse.isHexDigit h2 && h1 == gparse.asciiUpper h1 &&
        h2 == gparse.asciiUpper h2 &&
        !gparse.isUnreservedByte
          (16 * (gparse.hexDigitVal h1).getD 0 + (gparse.hexDigitVal h2).getD 0) &&
        gparse.escapedNF rest2) := by
  rw [gparse.escapedNF.eq_2, if_pos rfl]

theorem escapedNF_cons_of_ne {c : Char} {rest : List Char} (h : c ≠ '%') :
    gparse.escapedNF (c :: rest) =
      (gparse.pathAllowedRaw c && gparse.escapedNF rest) := by
  cases rest with
  | nil => rw [gparse.escapedNF.eq_3 c [] (by simp), if_neg h]
  | cons d tail =>
    cases tail with
    | nil =>
      rw [gparse.escapedNF.eq_3 c [d] (by intro _ _ _ hx; simp at hx), if_neg h]
    | cons e tail2 => rw [gparse.escapedNF.eq_2, if_neg h]

theorem escOkB_cons_pct (h1 h2 : Char) (rest2 : List Char) :
    gparse.escOkB ('%' :: h1 :: h2 :: rest2) =
      (gparse.isHexDigit h1 && gparse.isHexDigit h2 && gparse.escOkB rest2) := by
  rw [gparse.escOkB.eq_2, if_pos rfl]

theorem escOkB_cons_of_ne {c : Char} {rest : List Char} (h : c ≠ '%') :
    gparse.escOkB (c :: rest) = gparse.escOkB rest := by
  cases rest with
  | nil => rw [gparse.escOkB.eq_3 c [] (by simp), if_neg h]
  | cons d tail =>
    cases tail with
    | nil =>
      rw [gparse.escOkB.eq_3 c [d] (by intro _ _ _ hx; simp at hx), if_neg h]
    | cons e tail2 => rw [gparse.escOkB.eq_2, if_neg h]

theorem normEscapes_pct_valid {h1 h2 : Char} (rest2 : List Char) {a b : Nat}
    (hx1 : gparse.hexDigitVal h1 = some a) (hx2 : gparse.hexDigitVal h2 = some b) :
    gparse.normEscapes ('%' :: h1 :: h2 :: rest2) =
      (if gparse.isUnreservedByte (16 * a + b) then
        Char.ofNat (16 * a + b) :: gparse.normEscapes rest2
      else '%' :: gparse.asciiUpper h1 :: gparse.asciiUpper h2 ::
        gparse.normEscapes rest2) := by
  rw [gparse.normEscapes.eq_2, if_pos rfl, hx1, hx2]

theorem normEscapes_pct_invalid {h1 h2 : Char} (rest2 : List Char)
    (hfail : ∀ a b, gparse.hexDigitVal h1 = some a →
      gparse.hexDigitVal h2 = some b → False) :
    gparse.normEscapes ('%' :: h1 :: h2 :: rest2) =
      '%' :: h1 :: h2 :: gparse.normEscapes rest2 := by
  rw [gparse.normEscapes.eq_2, if_pos rfl]
  cases hx1 : gparse.hexDigitVal h1 with
  | none => rfl
  | some a =>
    cases hx2 : gparse.hexDigitVal h2 with
    | none => rfl
    | some b => exact (hfail a b hx1 hx2).elim

theorem normEscapes_pct_short {rest : List Char}
    (hne : ∀ h1 h2 rest2, rest = h1 :: h2 :: rest2 → False) :
    gparse.normEscapes ('%' :: rest) = '%' :: gparse.normEscapes rest := by
  rw [gparse.normEscapes.eq_3 _ _ hne, if_pos rfl]

theorem normEscapes_cons_of_ne {c : Char} {rest : List Char} (h : c ≠ '%') :
    gparse.normEscapes (c :: rest) =
      (if gparse.pathAllowedRaw c then c :: gparse.normEscapes rest
       else (gparse.utf8Bytes c).flatMap gparse.escByte ++
         gparse.normEscapes rest) := by
  cases rest with
  | nil => rw [gparse.normEscapes.eq_3 c [] (by simp), if_neg h]
  | cons d tail =>
    cases tail with
    | nil =>
      rw [gparse.normEscapes.eq_3 c [d] (by intro _ _ _ hx; simp at hx), if_neg h]
    | cons e tail2 => rw [gparse.normEscapes.eq_2, if_neg h]

theorem pct_ne_slash : ('%' : Char) ≠ '/' := by decide

theorem hexVal_ne_slash {c : Char} {a : Nat} (h : gparse.hexDigitVal c = some a) :
    c ≠ '/' := by
  intro he
  rw [he] at h
  have hn : gparse.hexDigitVal '/' = none := by decide
  rw [hn] at h
  exact Option.noConfusion h

theorem escByte_escapedNF {b : Nat} (hb : b < 256)
    (hu : gparse.isUnreservedByte b = false) {rest : List Char}
    (hr : gparse.escapedNF rest = true) :
    gparse.escapedNF (gparse.escByte b ++ rest) = true := by
  have h1 : b / 16 < 16 := by omega
  have h2 : b % 16 < 16 := by omega
  have hb16 : 16 * (b / 16) + b % 16 = b := by omega
  have e : gparse.escByte b ++ rest =
      '%' :: gparse.toUpperHexDigit (b / 16) ::
        gparse.toUpperHexDigit (b % 16) :: rest := rfl
  rw [e, escapedNF_cons_pct, isHexDigit_toUpperHexDigit h1,
    isHexDigit_toUpperHexDigit h2, asciiUpper_toUpperHexDigit h1,
    asciiUpper_toUpperHexDigit h2, hexDigitVal_toUpperHexDigit h1,
    hexDigitVal_toUpperHexDigit h2, hr]
  simp only [Option.getD_some]
  rw [hb16, hu]
  simp

theorem escapedNF_append : ∀ a : List Char, ∀ {b : List Char},
    gparse.escapedNF a = true → gparse.escapedNF b = true →
    gparse.escapedNF (a ++ b) = true := by
  intro a
  induction a using gparse.escapedNF.induct with
  | case1 =>
    intro b _ hb
    simpa using hb
  | case2 h1 h2 rest2 ih =>
    intro b ha hb
    simp only [List.cons_append]
    rw [escapedNF_cons_pct] at ha ⊢
    simp only [Bool.and_eq_true] at ha ⊢
    exact ⟨ha.1, ih ha.2 hb⟩
  | case3 rest hne =>
    intro b ha _
    rw [gparse.escapedNF.eq_3 _ _ hne, if_pos rfl] at ha
    exact absurd ha (by simp)
  | case4 c rest hne ih =>
    intro b ha hb
    simp only [List.cons_append]
    rw [escapedNF_cons_of_ne hne] at ha
    rw [escapedNF_cons_of_ne hne]
    simp only [Bool.and_eq_true] at ha ⊢
    exact ⟨ha.1, ih ha.2 hb⟩

theorem escapedNF_flatMap_escByte :
    ∀ bs : List Nat,
    (∀ b ∈ bs, b < 256 ∧ gparse.isUnreservedByte b = false) →
    ∀ {t : List Char}, gparse.escapedNF t = true →
    gparse.escapedNF (bs.flatMap gparse.escByte ++ t) = true := by
  intro bs
  induction bs with
  | nil =>
    intro _ t ht
    simpa using ht
  | cons b rest ih =>
    intro hbs t ht
    simp only [List.flatMap_cons, List.append_assoc]
    have hb := hbs b (by simp)
    exact escByte_escapedNF hb.1 hb.2
      (ih (fun x hx => hbs x (by simp [hx])) ht)

theorem normEscapes_escapedNF : ∀ l : List Char, gparse.escOkB l = true →
    gparse.escapedNF (gparse.normEscapes l) = true := by
  intro l
  induction l using gparse.normEscapes.induct with
  | case1 =>
    intro _
    rfl
  | case2 h1 h2 rest2 a b hx2 hx1 hun ih =>
    intro h
    rw [escOkB_cons_pct] at h
    simp only [Bool.and_eq_true] at h
    rw [normEscapes_pct_valid rest2 hx1 hx2, if_pos hun]
    have hall := (ofNat_unreserved_allowed hun).1
    have hne : Char.ofNat (16 * a + b) ≠ '%' := by
      intro he
      rw [he] at hall
      exact absurd hall (by decide)
    rw [escapedNF_cons_of_ne hne, hall, ih h.2]
    rfl
  | case3 h1 h2 rest2 a b hx2 hx1 hun ih =>
    intro h
    rw [escOkB_cons_pct] at h
    simp only [Bool.and_eq_true] at h
    rw [normEscapes_pct_valid rest2 hx1 hx2, if_neg hun]
    rw [escapedNF_cons_pct, isHexDigit_asciiUpper, isHexDigit_asciiUpper,
      asciiUpper_idem, asciiUpper_idem, hexDigitVal_asciiUpper,
      hexDigitVal_asciiUpper, hx1, hx2, ih h.2]
    simp only [Option.getD_some]
    have hun2 : gparse.isUnreservedByte (16 * a + b) = false := by
      cases hx : gparse.isUnreservedByte (16 * a + b)
      · rfl
      · exact absurd hx hun
    rw [hun2]
    simp [h.1.1, h.1.2]
  | case4 h1 h2 rest2 hfail ih =>
    intro h
    rw [escOkB_cons_pct] at h
    simp only [Bool.and_eq_true] at h
    have hh1 := h.1.1
    unfold gparse.isHexDigit at hh1
    rw [Option.isSome_iff_exists] at hh1
    obtain ⟨a, ha⟩ := hh1
    have hh2 := h.1.2
    unfold gparse.isHexDigit at hh2
    rw [Option.isSome_iff_exists] at hh2
    obtain ⟨b, hb2⟩ := hh2
    exact (hfail a b ha hb2).elim
  | case5 rest hne ih =>
    intro h
    rw [gparse.escOkB.eq_3 _ _ hne, if_pos rfl] at h
    exact absurd h (by simp)
  | case6 c rest hnp hall ih =>
    intro h
    rw [escOkB_cons_of_ne hnp] at h
    rw [normEscapes_cons_of_ne hnp, if_pos hall, escapedNF_cons_of_ne hnp,
      hall, ih h]
    rfl
  | case7 c rest hnp hnall ih =>
    intro h
    rw [escOkB_cons_of_ne hnp] at h
    rw [normEscapes_cons_of_ne hnp, if_neg hnall]
    have hnall2 : gparse.pathAllowedRaw c = false := by
      cases hx : gparse.pathAllowedRaw c
      · rfl
      · exact absurd hx hnall
    exact escapedNF_flatMap_escByte _
      (fun b hb => ⟨utf8Bytes_lt_256 c b hb, utf8Bytes_not_unreserved hnall2 b hb⟩)
      (ih h)

theorem normEscapes_of_escapedNF : ∀ l : List Char, gparse.escapedNF l = true →
    gparse.normEscapes l = l := by
  intro l
  induction l using gparse.normEscapes.induct with
  | case1 =>
    intro _
    rfl
  | case2 h1 h2 rest2 a b hx2 hx1 hun ih =>
    intro h
    rw [escapedNF_cons_pct] at h
    simp only [Bool.and_eq_true] at h
    have hnu := h.1.2
    rw [hx1, hx2] at hnu
    simp only [Option.getD_some] at hnu
    rw [hun] at hnu
    exact absurd hnu (by simp)
  | case3 h1 h2 rest2 a b hx2 hx1 hun ih =>
    intro h
    rw [escapedNF_cons_pct] at h
    simp only [Bool.and_eq_true] at h
    have he1 : h1 = gparse.asciiUpper h1 := eq_of_beq h.1.1.1.2
    have he2 : h2 = gparse.asciiUpper h2 := eq_of_beq h.1.1.2
    rw [normEscapes_pct_valid rest2 hx1 hx2, if_neg hun, ← he1, ← he2, ih h.2]
  | case4 h1 h2 rest2 hfail ih =>
    intro h
    rw [escapedNF_cons_pct] at h
    simp only [Bool.and_eq_true] at h
    have hh1 := h.1.1.1.1.1
    unfold gparse.isHexDigit at hh1
    rw [Option.isSome_iff_exists] at hh1
    obtain ⟨a, ha⟩ := hh1
    have hh2 := h.1.1.1.1.2
    unfold gparse.isHexDigit at hh2
    rw [Option.isSome_iff_exists] at hh2
    obtain ⟨b, hb2⟩ := hh2
    exact (hfail a b ha hb2).elim
  | case5 rest hne ih =>
    intro h
    rw [gparse.escapedNF.eq_3 _ _ hne, if_pos rfl] at h
    exact absurd h (by simp)
  | case6 c rest hnp hall ih =>
    intro h
    rw [escapedNF_cons_of_ne hnp] at h
    simp only [Bool.and_eq_true] at h
    rw [normEscapes_cons_of_ne hnp, if_pos hall, ih h.2]
  | case7 c rest hnp hnall ih =>
    intro h
    rw [escapedNF_cons_of_ne hnp] at h
    simp only [Bool.and_eq_true] at h
    exact absurd h.1 hnall

theorem slash_notMem_flatMap_escByte :
    ∀ bs : List Nat, (∀ b ∈ bs, b < 256) →
    '/' ∉ bs.flatMap gparse.escByte := by
  intro bs
  induction bs with
  | nil =>
    intro _
    simp
  | cons b rest ih =>
    intro hbs
    simp only [List.flatMap_cons, List.mem_append, not_or]
    refine ⟨?_, ih (fun x hx => hbs x (by simp [hx]))⟩
    have hb := hbs b (by simp)
    unfold gparse.escByte
    simp only [List.mem_cons, List.not_mem_nil, or_false, not_or]
    refine ⟨fun hx => pct_ne_slash hx.symm, fun hx => ?_, fun hx => ?_⟩
    · exact toUpperHexDigit_ne_slash (by omega) hx.symm
    · exact toUpperHexDigit_ne_slash (by omega) hx.symm

theorem normEscapes_no_slash : ∀ l : List Char, '/' ∉ l →
    '/' ∉ gparse.normEscapes l := by
  intro l
  induction l using gparse.normEscapes.induct with
  | case1 =>
    intro _
    simp [gparse.normEscapes]
  | case2 h1 h2 rest2 a b hx2 hx1 hun ih =>
    intro h
    simp only [List.mem_cons, not_or] at h
    rw [normEscapes_pct_valid rest2 hx1 hx2, if_pos hun]
    simp only [List.mem_cons, not_or]
    exact ⟨fun he => (ofNat_unreserved_allowed hun).2 he.symm, ih h.2.2.2⟩
  | case3 h1 h2 rest2 a b hx2 hx1 hun ih =>
    intro h
    simp only [List.mem_cons, not_or] at h
    rw [normEscapes_pct_valid rest2 hx1 hx2, if_neg hun]
    simp only [List.mem_cons, not_or]
    refine ⟨fun hx => pct_ne_slash hx.symm, fun hx => ?_, fun hx => ?_,
      ih h.2.2.2⟩
    · have hv : gparse.hexDigitVal (gparse.asciiUpper h1) = some a := by
        rw [hexDigitVal_asciiUpper, hx1]
      exact hexVal_ne_slash hv hx.symm
    · have hv : gparse.hexDigitVal (gparse.asciiUpper h2) = some b := by
        rw [hexDigitVal_asciiUpper, hx2]
      exact hexVal_ne_slash hv hx.symm
  | case4 h1 h2 rest2 hfail ih =>
    intro h
    simp only [List.mem_cons, not_or] at h
    rw [normEscapes_pct_invalid rest2 hfail]
    simp only [List.mem_cons, not_or]
    exact ⟨fun hx => pct_ne_slash hx.symm, h.2.1, h.2.2.1, ih h.2.2.2⟩
  | case5 rest hne ih =>
    intro h
    simp only [List.mem_cons, not_or] at h
    rw [normEscapes_pct_short hne]
    simp only [List.mem_cons, not_or]
    exact ⟨fun hx => pct_ne_slash hx.symm, ih h.2⟩
  | case6 c rest hnp hall ih =>
    intro h
    simp only [List.mem_cons, not_or] at h
    rw [normEscapes_cons_of_ne hnp, if_pos hall]
    simp only [List.mem_cons, not_or]
    exact ⟨h.1, ih h.2⟩
  | case7 c rest hnp hnall ih =>
    intro h
    simp only [List.mem_cons, not_or] at h
    rw [normEscapes_cons_of_ne hnp, if_neg hnall]
    simp only [List.mem_append, not_or]
    exact ⟨slash_notMem_flatMap_escByte _ (fun b hb => utf8Bytes_lt_256 c b hb),
      ih h.2⟩



theorem splitOnChar_ne_nil (sep : Char) (l : List Char) :
    splitOnChar sep l ≠ [] := by
  cases l with
  | nil => simp [splitOnChar]
  | cons c rest =>
    unfold splitOnChar
    dsimp only
    split_ifs
    · simp
    · cases splitOnChar sep rest <;> simp

theorem splitOnChar_cons_sep (sep : Char) (l : List Char) :
    splitOnChar sep (sep :: l) = [] :: splitOnChar sep l := by
  conv_lhs => unfold splitOnChar
  rw [if_pos rfl]

theorem splitOnChar_cons_ne {sep c : Char} (l : List Char) (h : c ≠ sep) :
    splitOnChar sep (c :: l) =
      (c :: (splitOnChar sep l).headD []) :: (splitOnChar sep l).tail := by
  conv_lhs => unfold splitOnChar
  dsimp only
  rw [if_neg h]
  cases hr : splitOnChar sep l with
  | nil => exact absurd hr (splitOnChar_ne_nil sep l)
  | cons hd tl => rfl

theorem split_sections_no_sep (sep : Char) :
    ∀ l : List Char, ∀ s ∈ splitOnChar sep l, sep ∉ s := by
  intro l
  induction l with
  | nil =>
    intro s hs
    simp [splitOnChar] at hs
    simp [hs]
  | cons c rest ih =>
    intro s hs
    by_cases hc : c = sep
    · subst hc
      rw [splitOnChar_cons_sep] at hs
      rcases List.mem_cons.mp hs with h1 | h1
      · simp [h1]
      · exact ih s h1
    · rw [splitOnChar_cons_ne rest hc] at hs
      cases hr : splitOnChar sep rest with
      | nil => exact absurd hr (splitOnChar_ne_nil sep rest)
      | cons hd tl =>
        rw [hr] at hs
        dsimp only [List.headD, List.tail] at hs
        rcases List.mem_cons.mp hs with h1 | h1
        · subst h1
          intro hmem
          rcases List.mem_cons.mp hmem with h2 | h2
          · exact hc h2.symm
          · exact ih hd (by rw [hr]; simp) h2
        · exact ih s (by rw [hr]; simp [h1])

theorem joinChar_cons_cons (sep c : Char) (h : List Char)
    (t : List (List Char)) :
    gparse.joinChar sep ((c :: h) :: t) = c :: gparse.joinChar sep (h :: t) := by
  cases t <;> rfl

theorem joinChar_splitOnChar (sep : Char) :
    ∀ l : List Char, gparse.joinChar sep (splitOnChar sep l) = l := by
  intro l
  induction l with
  | nil => rfl
  | cons c rest ih =>
    by_cases hc : c = sep
    · rw [hc, splitOnChar_cons_sep]
      cases hr : splitOnChar sep rest with
      | nil => exact absurd hr (splitOnChar_ne_nil sep rest)
      | cons hd tl =>
        rw [hr] at ih
        calc gparse.joinChar sep ([] :: hd :: tl) = sep :: gparse.joinChar sep (hd :: tl) := rfl
          _ = sep :: rest := by rw [ih]
    · rw [splitOnChar_cons_ne rest hc]
      cases hr : splitOnChar sep rest with
      | nil => exact absurd hr (splitOnChar_ne_nil sep rest)
      | cons hd tl =>
        rw [hr] at ih
        dsimp only [List.headD, List.tail]
        rw [joinChar_cons_cons, ih]

theorem splitOnChar_no_sep {sep : Char} :
    ∀ {s : List Char}, sep ∉ s → splitOnChar sep s = [s] := by
  intro s
  induction s with
  | nil => intro _; rfl
  | cons c cs ih =>
    intro h
    simp only [List.mem_cons, not_or] at h
    rw [splitOnChar_cons_ne cs (fun hx => h.1 hx.symm), ih h.2]
    rfl

theorem splitOnChar_append_sep_cons {sep : Char} :
    ∀ {s : List Char}, sep ∉ s → ∀ l : List Char,
    splitOnChar sep (s ++ sep :: l) = s :: splitOnChar sep l := by
  intro s
  induction s with
  | nil =>
    intro _ l
    simpa using splitOnChar_cons_sep sep l
  | cons c cs ih =>
    intro h l
    simp only [List.mem_cons, not_or] at h
    rw [List.cons_append, splitOnChar_cons_ne _ (fun hx => h.1 hx.symm),
      ih h.2 l]
    rfl

theorem splitOnChar_joinChar (sep : Char) :
    ∀ ss : List (List Char), ss ≠ [] → (∀ s ∈ ss, sep ∉ s) →
    splitOnChar sep (gparse.joinChar sep ss) = ss := by
  intro ss
  induction ss with
  | nil => intro h; exact absurd rfl h
  | cons s t ih =>
    intro _ hns
    cases t with
    | nil =>
      have : gparse.joinChar sep [s] = s := rfl
      rw [this, splitOnChar_no_sep (hns s (by simp))]
    | cons h2 t2 =>
      have : gparse.joinChar sep (s :: h2 :: t2) = s ++ sep :: gparse.joinChar sep (h2 :: t2) := rfl
      rw [this, splitOnChar_append_sep_cons (hns s (by simp)),
        ih (by simp) (fun x hx => hns x (by simp [hx]))]

theorem splitOnChar_append_sep (sep : Char) :
    ∀ l : List Char, splitOnChar sep (l ++ [sep]) = splitOnChar sep l ++ [[]] := by
  intro l
  induction l with
  | nil =>
    rw [List.nil_append, splitOnChar_cons_sep]
    rfl
  | cons c rest ih =>
    by_cases hc : c = sep
    · subst hc
      rw [List.cons_append, splitOnChar_cons_sep, splitOnChar_cons_sep, ih]
      rfl
    · rw [List.cons_append, splitOnChar_cons_ne _ hc, splitOnChar_cons_ne _ hc, ih]
      cases hr : splitOnChar sep rest with
      | nil => exact absurd hr (splitOnChar_ne_nil sep rest)
      | cons hd tl => rfl

theorem isHexDigit_ne_slash {c : Char} (h : gparse.isHexDigit c = true) :
    c ≠ '/' := by
  unfold gparse.isHexDigit at h
  rw [Option.isSome_iff_exists] at h
  obtain ⟨a, ha⟩ := h
  exact hexVal_ne_slash ha

theorem escOkB_split :
    ∀ l : List Char, gparse.escOkB l = true →
    ∀ s ∈ splitOnChar '/' l, gparse.escOkB s = true := by
  intro l
  induction l using gparse.escOkB.induct with
  | case1 =>
    intro _ s hs
    simp [splitOnChar] at hs
    simp [hs]
    rfl
  | case2 h1 h2 rest2 ih =>
    intro h s hs
    rw [escOkB_cons_pct] at h
    simp only [Bool.and_eq_true] at h
    have hp : ('%' : Char) ≠ '/' := by decide
    have hh1 : h1 ≠ '/' := isHexDigit_ne_slash h.1.1
    have hh2 : h2 ≠ '/' := isHexDigit_ne_slash h.1.2
    rw [splitOnChar_cons_ne _ hp, splitOnChar_cons_ne _ hh1,
      splitOnChar_cons_ne _ hh2] at hs
    cases hr : splitOnChar '/' rest2 with
    | nil => exact absurd hr (splitOnChar_ne_nil '/' rest2)
    | cons hd tl =>
      rw [hr] at hs
      dsimp only [List.headD, List.tail] at hs
      rcases List.mem_cons.mp hs with h1e | h1e
      · subst h1e
        rw [escOkB_cons_pct]
        simp only [Bool.and_eq_true]
        exact ⟨⟨h.1.1, h.1.2⟩, ih h.2 hd (by rw [hr]; simp)⟩
      · exact ih h.2 s (by rw [hr]; simp [h1e])
  | case3 rest hne =>
    intro h s hs
    rw [gparse.escOkB.eq_3 _ _ hne, if_pos rfl] at h
    exact absurd h (by simp)
  | case4 c rest hnp ih =>
    intro h s hs
    rw [escOkB_cons_of_ne hnp] at h
    by_cases hc : c = '/'
    · subst hc
      rw [splitOnChar_cons_sep] at hs
      rcases List.mem_cons.mp hs with h1e | h1e
      · subst h1e
        rfl
      · exact ih h s h1e
    · rw [splitOnChar_cons_ne _ hc] at hs
      cases hr : splitOnChar '/' rest with
      | nil => exact absurd hr (splitOnChar_ne_nil '/' rest)
      | cons hd tl =>
        rw [hr] at hs
        dsimp only [List.headD, List.tail] at hs
        rcases List.mem_cons.mp hs with h1e | h1e
        · subst h1e
          rw [escOkB_cons_of_ne hnp]
          exact ih h hd (by rw [hr]; simp)
        · exact ih h s (by rw [hr]; simp [h1e])

theorem dotFreeFold_mem :
    ∀ (xs acc : List (List Char)) (s : List Char),
    s ∈ gparse.dotFreeFold acc xs →
    s ∈ acc ∨ (s ∈ xs ∧ gparse.isDotSec s = false) := by
  intro xs
  induction xs with
  | nil =>
    intro acc s hs
    exact Or.inl hs
  | cons x rest ih =>
    intro acc s hs
    unfold gparse.dotFreeFold at hs
    split_ifs at hs with h1 h2
    · rcases ih _ s hs with hl | hr
      · exact Or.inl (List.dropLast_subset _ hl)
      · exact Or.inr ⟨by simp [hr.1], hr.2⟩
    · rcases ih _ s hs with hl | hr
      · exact Or.inl hl
      · exact Or.inr ⟨by simp [hr.1], hr.2⟩
    · rcases ih _ s hs with hl | hr
      · rcases List.mem_append.mp hl with ha | ha
        · exact Or.inl ha
        · refine Or.inr ⟨by simp at ha; simp [ha], ?_⟩
          simp at ha
          subst ha
          unfold gparse.isDotSec
          simp [h1, h2]
      · exact Or.inr ⟨by simp [hr.1], hr.2⟩

theorem dotFreeFold_id :
    ∀ (xs acc : List (List Char)),
    (∀ s ∈ xs, gparse.isDotSec s = false) →
    gparse.dotFreeFold acc xs = acc ++ xs := by
  intro xs
  induction xs with
  | nil =>
    intro acc _
    simp [gparse.dotFreeFold]
  | cons x rest ih =>
    intro acc h
    have hx := h x (by simp)
    unfold gparse.isDotSec at hx
    simp only [Bool.or_eq_false_iff, decide_eq_false_iff_not] at hx
    unfold gparse.dotFreeFold
    rw [if_neg hx.2, if_neg hx.1, ih _ (fun s hs => h s (by simp [hs]))]
    simp

theorem riAux_mem :
    ∀ l : List (List Char), ∀ s ∈ gparse.riAux l, s ∈ l := by
  intro l
  induction l using gparse.riAux.induct with
  | case1 =>
    intro s hs
    simp [gparse.riAux] at hs
  | case2 x =>
    intro s hs
    simpa [gparse.riAux] using hs
  | case3 rest hne ih =>
    intro s hs
    rw [gparse.riAux.eq_3 _ _ hne, if_pos rfl] at hs
    exact List.mem_cons_of_mem [] (ih s hs)
  | case4 x rest hne hx ih =>
    intro s hs
    rw [gparse.riAux.eq_3 _ _ hne, if_neg hx] at hs
    rcases List.mem_cons.mp hs with h2 | h2
    · simp [h2]
    · exact List.mem_cons_of_mem x (ih s h2)

theorem riAux_interior :
    ∀ l : List (List Char), ∀ s ∈ (gparse.riAux l).dropLast, s ≠ [] := by
  intro l
  induction l using gparse.riAux.induct with
  | case1 =>
    intro s hs
    simp [gparse.riAux] at hs
  | case2 x =>
    intro s hs
    simp [gparse.riAux] at hs
  | case3 rest hne ih =>
    intro s hs
    rw [gparse.riAux.eq_3 _ _ hne, if_pos rfl] at hs
    exact ih s hs
  | case4 x rest hne hx ih =>
    intro s hs
    rw [gparse.riAux.eq_3 _ _ hne, if_neg hx] at hs
    cases hr : gparse.riAux rest with
    | nil =>
      rw [hr] at hs
      simp at hs
    | cons y ys =>
      rw [hr, List.dropLast_cons_of_ne_nil (by simp)] at hs
      rcases List.mem_cons.mp hs with h2 | h2
      · rw [h2]; exact hx
      · exact ih s (by rw [hr]; exact h2)

theorem riAux_eq_self :
    ∀ l : List (List Char), (∀ s ∈ l.dropLast, s ≠ []) →
    gparse.riAux l = l := by
  intro l
  induction l using gparse.riAux.induct with
  | case1 =>
    intro _
    rfl
  | case2 x =>
    intro _
    rfl
  | case3 rest hne ih =>
    intro h
    exfalso
    have hrest : rest ≠ [] := fun hx => hne hx
    have : ([] : List Char) ∈ ([] :: rest).dropLast := by
      rw [List.dropLast_cons_of_ne_nil hrest]
      simp
    exact h [] this rfl
  | case4 x rest hne hx ih =>
    intro h
    have hrest : rest ≠ [] := fun hy => hne hy
    rw [gparse.riAux.eq_3 _ _ hne, if_neg hx,
      ih (fun s hs => h s (by rw [List.dropLast_cons_of_ne_nil hrest]; simp [hs]))]

theorem removeInteriorEmpties_mem :
    ∀ xs : List (List Char), ∀ s ∈ gparse.removeInteriorEmpties xs, s ∈ xs := by
  intro xs s hs
  cases xs with
  | nil => simpa [gparse.removeInteriorEmpties] using hs
  | cons y rest =>
    unfold gparse.removeInteriorEmpties at hs
    rcases List.mem_cons.mp hs with h1 | h1
    · simp [h1]
    · exact List.mem_cons_of_mem y (riAux_mem rest s h1)

theorem removeInteriorEmpties_eq_self :
    ∀ xs : List (List Char), (∀ s ∈ xs.tail.dropLast, s ≠ []) →
    gparse.removeInteriorEmpties xs = xs := by
  intro xs h
  cases xs with
  | nil => rfl
  | cons y rest =>
    show y :: gparse.riAux rest = y :: rest
    rw [riAux_eq_self rest (fun s hs => h s hs)]

theorem removeInteriorEmpties_interior :
    ∀ xs : List (List Char),
    ∀ s ∈ (gparse.removeInteriorEmpties xs).tail.dropLast, s ≠ [] := by
  intro xs s hs
  cases xs with
  | nil => simp [gparse.removeInteriorEmpties] at hs
  | cons y rest =>
    unfold gparse.removeInteriorEmpties at hs
    dsimp only [List.tail] at hs
    exact riAux_interior rest s hs

theorem lastIsDot_false_of {xs : List (List Char)}
    (h : ∀ s ∈ xs, gparse.isDotSec s = false) :
    gparse.lastIsDot xs = false := by
  unfold gparse.lastIsDot
  cases hg : xs.getLast? with
  | none => rfl
  | some s => exact h s (List.mem_of_getLast?_eq_some hg)

theorem joinChar_nil_cons (sep : Char) (dt : List (List Char)) :
    gparse.joinChar sep ([] :: dt) =
      (if dt = [] then [] else sep :: gparse.joinChar sep dt) := by
  cases dt with
  | nil => rfl
  | cons d t => rw [if_neg (by simp)]; rfl

theorem join_getLast_of_last_nil (sep : Char) :
    ∀ ss : List (List Char), 2 ≤ ss.length → ss.getLast? = some [] →
    (gparse.joinChar sep ss).getLast? = some sep := by
  intro ss
  induction ss with
  | nil =>
    intro h _
    simp at h
  | cons a t ih =>
    intro hlen hlast
    cases t with
    | nil => simp at hlen
    | cons b t2 =>
      have hj : gparse.joinChar sep (a :: b :: t2) =
          a ++ sep :: gparse.joinChar sep (b :: t2) := rfl
      have hni : (sep :: gparse.joinChar sep (b :: t2)) ≠ [] := by simp
      rw [hj, List.getLast?_append_of_ne_nil _ hni]
      cases t2 with
      | nil =>
        have hb : b = [] := by
          simp [List.getLast?] at hlast
          exact hlast
        subst hb
        rfl
      | cons c t3 =>
        have hlast2 : (b :: c :: t3).getLast? = some [] := by
          rw [List.getLast?_cons_cons] at hlast
          exact hlast
        have hih := ih (by simp) hlast2
        cases hjoin : gparse.joinChar sep (b :: c :: t3) with
        | nil => rw [hjoin] at hih; simp at hih
        | cons z zs =>
          rw [hjoin] at hih
          rw [List.getLast?_cons_cons]
          exact hih

theorem normalizePathList_eq (host p : List Char) (hp : p ≠ []) :
    gparse.normalizePathList host p =
      (let secs := (splitOnChar '/' p).map gparse.normEscapes
       let df := gparse.removeInteriorEmpties (gparse.dotFreeFold [] secs)
       let s := gparse.joinChar '/' df
       let s1 := if host ≠ [] ∧ s ≠ [] ∧ s.head? ≠ some '/' then '/' :: s else s
       if gparse.lastIsDot secs ∧ s1.getLast? ≠ some '/' then s1 ++ ['/']
       else s1) := by
  unfold gparse.normalizePathList
  rw [if_neg hp]

theorem pathNF_normalize {host q : List Char} (h : pathNF host q) :
    gparse.normalizePathList host q = q := by
  obtain ⟨hq, hmap, hdf, hri, hld, hh⟩ := h
  rw [normalizePathList_eq host q hq]
  dsimp only
  rw [hmap, hdf, hri, hld, joinChar_splitOnChar '/' q]
  have hs1 : (if host ≠ [] ∧ q ≠ [] ∧ q.head? ≠ some '/' then '/' :: q else q) = q := by
    rcases hh with hh | hh
    · rw [if_neg]
      intro hc
      exact hc.1 hh
    · rw [if_neg]
      intro hc
      exact hc.2.2 hh
  rw [hs1, if_neg]
  intro hc
  simp at hc

theorem pathNF_slash (host : List Char) : pathNF host ['/'] := by
  refine ⟨by simp, by decide, by decide, by decide, by decide, Or.inr rfl⟩

theorem map_normEscapes_self :
    ∀ xs : List (List Char), (∀ x ∈ xs, gparse.escapedNF x = true) →
    xs.map gparse.normEscapes = xs := by
  intro xs
  induction xs with
  | nil => intro _; rfl
  | cons a t ih =>
    intro h
    simp only [List.map_cons]
    rw [normEscapes_of_escapedNF a (h a (by simp)),
      ih (fun x hx => h x (by simp [hx]))]

theorem mem_dropLast_or_getLast {α : Type} :
    ∀ (l : List α) (x : α), x ∈ l →
    x ∈ l.dropLast ∨ l.getLast? = some x := by
  intro l
  induction l with
  | nil =>
    intro x hx
    simp at hx
  | cons a t ih =>
    intro x hx
    cases t with
    | nil =>
      simp at hx
      subst hx
      exact Or.inr rfl
    | cons b t2 =>
      rcases List.mem_cons.mp hx with h1 | h1
      · subst h1
        exact Or.inl (by rw [List.dropLast_cons_of_ne_nil (by simp)]; simp)
      · rcases ih x h1 with h2 | h2
        · exact Or.inl (by rw [List.dropLast_cons_of_ne_nil (by simp)]; simp [h2])
        · exact Or.inr (by rw [List.getLast?_cons_cons]; exact h2)

theorem pathNF_intro {host q : List Char} (hq : q ≠ [])
    (hesc : ∀ x ∈ splitOnChar '/' q, gparse.escapedNF x = true)
    (hnd : ∀ x ∈ splitOnChar '/' q, gparse.isDotSec x = false)
    (hint : ∀ x ∈ (splitOnChar '/' q).tail.dropLast, x ≠ [])
    (hh : host = [] ∨ q.head? = some '/') :
    pathNF host q := by
  refine ⟨hq, map_normEscapes_self _ hesc, ?_,
    removeInteriorEmpties_eq_self _ hint, lastIsDot_false_of hnd, hh⟩
  have hid := dotFreeFold_id (splitOnChar '/' q) [] hnd
  simpa using hid

theorem mem_dropLast_cons {α : Type} {x y : α} {t : List α}
    (h : x ∈ (y :: t).dropLast) : x = y ∨ x ∈ t.dropLast := by
  cases t with
  | nil => simp at h
  | cons b t2 =>
    rw [List.dropLast_cons_of_ne_nil (by simp)] at h
    exact List.mem_cons.mp h

theorem normalize_pathNF (host p : List Char) (hok : gparse.escOkB p = true)
    (hq : gparse.normalizePathList host p ≠ []) :
    pathNF host (gparse.normalizePathList host p) := by
  by_cases hp : p = []
  · exfalso
    apply hq
    rw [hp]
    unfold gparse.normalizePathList
    rw [if_pos rfl]
  rw [normalizePathList_eq host p hp] at hq ⊢
  dsimp only at hq ⊢
  set secs := (splitOnChar '/' p).map gparse.normEscapes with hsecs
  set df := gparse.removeInteriorEmpties (gparse.dotFreeFold [] secs) with hdf
  set s := gparse.joinChar '/' df with hs
  set s1 := (if host ≠ [] ∧ s ≠ [] ∧ s.head? ≠ some '/' then '/' :: s else s)
    with hs1
  have hsecs_esc : ∀ x ∈ secs, gparse.escapedNF x = true := by
    intro x hx
    rw [hsecs] at hx
    obtain ⟨x0, hx0, rfl⟩ := List.mem_map.mp hx
    exact normEscapes_escapedNF x0 (escOkB_split p hok x0 hx0)
  have hsecs_ns : ∀ x ∈ secs, '/' ∉ x := by
    intro x hx
    rw [hsecs] at hx
    obtain ⟨x0, hx0, rfl⟩ := List.mem_map.mp hx
    exact normEscapes_no_slash x0 (split_sections_no_sep '/' p x0 hx0)
  have hdf_mem : ∀ x ∈ df, x ∈ secs ∧ gparse.isDotSec x = false := by
    intro x hx
    rw [hdf] at hx
    have h1 := removeInteriorEmpties_mem _ x hx
    rcases dotFreeFold_mem secs [] x h1 with h2 | h2
    · simp at h2
    · exact ⟨h2.1, h2.2⟩
  have hdf_esc : ∀ x ∈ df, gparse.escapedNF x = true :=
    fun x hx => hsecs_esc x (hdf_mem x hx).1
  have hdf_ns : ∀ x ∈ df, '/' ∉ x :=
    fun x hx => hsecs_ns x (hdf_mem x hx).1
  have hdf_nd : ∀ x ∈ df, gparse.isDotSec x = false :=
    fun x hx => (hdf_mem x hx).2
  have hdf_int : ∀ x ∈ df.tail.dropLast, x ≠ [] := by
    rw [hdf]
    exact removeInteriorEmpties_interior _
  cases hdfc : df with
  | nil =>
    have hs0 : s = [] := by rw [hs, hdfc]; rfl
    have hs10 : s1 = [] := by
      rw [hs1, if_neg (fun hc => hc.2.1 hs0), hs0]
    rw [hs10] at hq ⊢
    by_cases hld : gparse.lastIsDot secs = true
    · rw [if_pos ⟨hld, by simp⟩] at hq ⊢
      simp only [List.nil_append]
      exact pathNF_slash host
    · rw [if_neg (fun hc => hld hc.1)] at hq
      exact absurd rfl hq
  | cons y dt =>
    have hdfne : df ≠ [] := by rw [hdfc]; simp
    have hsplit_s : splitOnChar '/' s = df := by
      rw [hs]
      exact splitOnChar_joinChar '/' df hdfne hdf_ns
    have hdt_int : ∀ x ∈ dt.dropLast, x ≠ [] := by
      intro x hx
      apply hdf_int x
      rw [hdfc]
      exact hx
    have hkey : s1.getLast? ≠ some '/' → ∀ x ∈ dt, x ≠ [] := by
      intro hD2 x hx
      rcases mem_dropLast_or_getLast dt x hx with h1 | h1
      · exact hdt_int x h1
      · intro hx0
        rw [hx0] at h1
        have hdtne : dt ≠ [] := by
          intro h0
          rw [h0] at h1
          simp at h1
        have hdflast : df.getLast? = some [] := by
          rw [hdfc]
          cases hdt2 : dt with
          | nil => exact absurd hdt2 hdtne
          | cons d t2 =>
            rw [List.getLast?_cons_cons, ← hdt2]
            exact h1
        have hlen : 2 ≤ df.length := by
          rw [hdfc]
          cases hdt2 : dt with
          | nil => exact absurd hdt2 hdtne
          | cons d t2 => simp
        have hjl : s.getLast? = some '/' := by
          rw [hs]
          exact join_getLast_of_last_nil '/' df hlen hdflast
        have hsne : s ≠ [] := by
          intro h0
          rw [h0] at hjl
          simp at hjl
        apply hD2
        rw [hs1]
        split_ifs with hC
        · cases hsc : s with
          | nil => exact absurd hsc hsne
          | cons a t =>
            rw [List.getLast?_cons_cons, ← hsc]
            exact hjl
        · exact hjl
    by_cases hC : host ≠ [] ∧ s ≠ [] ∧ s.head? ≠ some '/'
    · have hs1v : s1 = '/' :: s := by rw [hs1, if_pos hC]
      have hy : y ≠ [] := by
        intro hy0
        rw [hy0] at hdfc
        have hjv : s = if dt = [] then [] else '/' :: gparse.joinChar '/' dt := by
          rw [hs, hdfc]
          exact joinChar_nil_cons '/' dt
        cases hdt : dt with
        | nil =>
          rw [hdt, if_pos rfl] at hjv
          exact hC.2.1 hjv
        | cons d t2 =>
          rw [hdt, if_neg (by simp)] at hjv
          exact hC.2.2 (by rw [hjv]; rfl)
      have hsplit_s1 : splitOnChar '/' s1 = [] :: df := by
        rw [hs1v, splitOnChar_cons_sep, hsplit_s]
      by_cases hD : gparse.lastIsDot secs = true ∧ s1.getLast? ≠ some '/'
      · rw [if_pos hD] at hq ⊢
        have hdt_all := hkey hD.2
        have hsp : splitOnChar '/' (s1 ++ ['/']) = ([] :: df) ++ [[]] := by
          rw [splitOnChar_append_sep, hsplit_s1]
        refine pathNF_intro (by rw [hs1v]; simp) ?_ ?_ ?_ ?_
        · intro x hx
          rw [hsp] at hx
          simp only [List.cons_append, List.mem_cons, List.mem_append] at hx
          rcases hx with h1 | h1 | h1 | h1
          · rw [h1]; rfl
          · exact hdf_esc x h1
          · rw [h1]; rfl
          · simp at h1
        · intro x hx
          rw [hsp] at hx
          simp only [List.cons_append, List.mem_cons, List.mem_append] at hx
          rcases hx with h1 | h1 | h1 | h1
          · rw [h1]; rfl
          · exact hdf_nd x h1
          · rw [h1]; rfl
          · simp at h1
        · intro x hx
          rw [hsp] at hx
          rw [List.cons_append] at hx
          dsimp only [List.tail] at hx
          have he : ((df ++ [[]]) : List (List Char)).dropLast = df := by simp
          rw [he, hdfc] at hx
          rcases List.mem_cons.mp hx with h1 | h1
          · rw [h1]; exact hy
          · exact hdt_all x h1
        · right
          rw [hs1v]
          rfl
      · rw [if_neg hD] at hq ⊢
        refine pathNF_intro (by rw [hs1v]; simp) ?_ ?_ ?_ ?_
        · intro x hx
          rw [hsplit_s1] at hx
          rcases List.mem_cons.mp hx with h1 | h1
          · rw [h1]; rfl
          · exact hdf_esc x h1
        · intro x hx
          rw [hsplit_s1] at hx
          rcases List.mem_cons.mp hx with h1 | h1
          · rw [h1]; rfl
          · exact hdf_nd x h1
        · intro x hx
          rw [hsplit_s1] at hx
          dsimp only [List.tail] at hx
          rw [hdfc] at hx
          rcases mem_dropLast_cons hx with h1 | h1
          · rw [h1]; exact hy
          · exact hdt_int x h1
        · right
          rw [hs1v]
          rfl
    · have hs1v : s1 = s := by rw [hs1, if_neg hC]
      have hsplit_s1 : splitOnChar '/' s1 = df := by rw [hs1v, hsplit_s]
      have hor : host ≠ [] → s = [] ∨ s.head? = some '/' := by
        intro hh0
        by_cases hs0 : s = []
        · exact Or.inl hs0
        · right
          by_contra hhd
          exact hC ⟨hh0, hs0, hhd⟩
      by_cases hD : gparse.lastIsDot secs = true ∧ s1.getLast? ≠ some '/'
      · rw [if_pos hD] at hq ⊢
        have hdt_all := hkey hD.2
        have hsp : splitOnChar '/' (s1 ++ ['/']) = df ++ [[]] := by
          rw [splitOnChar_append_sep, hsplit_s1]
        refine pathNF_intro (by simp) ?_ ?_ ?_ ?_
        · intro x hx
          rw [hsp] at hx
          simp only [List.mem_append, List.mem_singleton] at hx
          rcases hx with h1 | h1
          · exact hdf_esc x h1
          · rw [h1]; rfl
        · intro x hx
          rw [hsp] at hx
          simp only [List.mem_append, List.mem_singleton] at hx
          rcases hx with h1 | h1
          · exact hdf_nd x h1
          · rw [h1]; rfl
        · intro x hx
          rw [hsp, hdfc, List.cons_append] at hx
          dsimp only [List.tail] at hx
          have he : ((dt ++ [[]]) : List (List Char)).dropLast = dt := by simp
          rw [he] at hx
          exact hdt_all x hx
        · by_cases hh0 : host = []
          · exact Or.inl hh0
          · right
            rcases hor hh0 with h1 | h1
            · rw [hs1v, h1]
              rfl
            · rw [hs1v]
              cases hsc : s with
              | nil =>
                rw [hsc] at h1
                simp at h1
              | cons a t =>
                rw [hsc] at h1
                have ha : a = '/' := by simpa using h1
                rw [List.cons_append]
                simp [ha]
      · rw [if_neg hD] at hq ⊢
        refine pathNF_intro hq ?_ ?_ ?_ ?_
        · intro x hx
          rw [hsplit_s1] at hx
          exact hdf_esc x hx
        · intro x hx
          rw [hsplit_s1] at hx
          exact hdf_nd x hx
        · intro x hx
          rw [hsplit_s1] at hx
          rw [hdfc] at hx
          dsimp only [List.tail] at hx
          exact hdt_int x hx
        · by_cases hh0 : host = []
          · exact Or.inl hh0
          · right
            rcases hor hh0 with h1 | h1
            · exact absurd (hs1v.trans h1) hq
            · rw [hs1v]
              exact h1

theorem GoUrl_ext {a b : gparse.GoUrl} (h1 : a.scheme = b.scheme)
    (h2 : a.host = b.host) (h3 : a.port = b.port) (h4 : a.path = b.path)
    (h5 : a.query = b.query) (h6 : a.fragment = b.fragment) : a = b := by
  cases a
  cases b
  simp_all

theorem NormalizeUrl_scheme (u : gparse.GoUrl) :
    (gparse.NormalizeUrl u).scheme = gparse.lowerStr u.scheme := by
  unfold gparse.NormalizeUrl
  dsimp only
  split_ifs <;> rfl

theorem NormalizeUrl_host (u : gparse.GoUrl) :
    (gparse.NormalizeUrl u).host = gparse.lowerStr u.host := by
  unfold gparse.NormalizeUrl
  dsimp only
  split_ifs <;> rfl

theorem NormalizeUrl_fragment (u : gparse.GoUrl) :
    (gparse.NormalizeUrl u).fragment = u.fragment := by
  unfold gparse.NormalizeUrl
  dsimp only
  split_ifs <;> rfl

theorem NormalizeUrl_query (u : gparse.GoUrl) :
    (gparse.NormalizeUrl u).query =
      (if u.query = some "" then none else u.query) := by
  unfold gparse.NormalizeUrl
  dsimp only
  split_ifs <;> rfl

theorem NormalizeUrl_port (u : gparse.GoUrl) :
    (gparse.NormalizeUrl u).port =
      (if u.scheme = "gemini" ∧ u.port = some "1965" then none
       else if u.port = some "" then none else u.port) := by
  unfold gparse.NormalizeUrl
  dsimp only
  by_cases h1 : u.scheme = "gemini" ∧ u.port = some "1965"
  · rw [if_pos h1, if_pos h1]
    simp
  · rw [if_neg h1, if_neg h1]

theorem NormalizeUrl_path (u : gparse.GoUrl) :
    (gparse.NormalizeUrl u).path =
      (if String.mk (gparse.normalizePathList
            (gparse.lowerStr u.host).toList u.path.toList) = "" then "/"
       else String.mk (gparse.normalizePathList
            (gparse.lowerStr u.host).toList u.path.toList)) := by
  unfold gparse.NormalizeUrl
  dsimp only
  split_ifs <;> rfl

theorem mk_eq_empty_iff2 (l : List Char) : String.mk l = "" ↔ l = [] := by
  constructor
  · intro h
    exact congrArg String.data h
  · intro h
    rw [h]

theorem NormalizeUrl_idem (u : gparse.GoUrl) (hw : gparse.wellFormed u) :
    gparse.NormalizeUrl (gparse.NormalizeUrl u) = gparse.NormalizeUrl u := by
  obtain ⟨hsch, hesc⟩ := hw
  have hvs := NormalizeUrl_scheme u
  have hvh := NormalizeUrl_host u
  have hvp := NormalizeUrl_port u
  have hvq := NormalizeUrl_query u
  have hvpath := NormalizeUrl_path u
  have hvf := NormalizeUrl_fragment u
  have hstrip2 : ¬((gparse.NormalizeUrl u).scheme = "gemini" ∧
      (gparse.NormalizeUrl u).port = some "1965") := by
    intro hc
    obtain ⟨hc1, hc2⟩ := hc
    rw [hvs] at hc1
    rw [hvp] at hc2
    have hg : u.scheme = "gemini" := by rw [hsch, hc1]
    by_cases ha : u.scheme = "gemini" ∧ u.port = some "1965"
    · rw [if_pos ha] at hc2
      exact Option.noConfusion hc2
    · rw [if_neg ha] at hc2
      by_cases hb : u.port = some ""
      · rw [if_pos hb] at hc2
        exact Option.noConfusion hc2
      · rw [if_neg hb] at hc2
        exact ha ⟨hg, hc2⟩
  apply GoUrl_ext
  · rw [NormalizeUrl_scheme, hvs, lowerStr_idem]
  · rw [NormalizeUrl_host, hvh, lowerStr_idem]
  · rw [NormalizeUrl_port, if_neg hstrip2, hvp]
    by_cases hc1 : u.scheme = "gemini" ∧ u.port = some "1965"
    · rw [if_pos hc1, if_neg (by simp)]
    · rw [if_neg hc1]
      by_cases hc3 : u.port = some ""
      · rw [if_pos hc3, if_neg (by simp)]
      · rw [if_neg hc3, if_neg hc3]
  · by_cases hq0 : gparse.normalizePathList
        (gparse.lowerStr u.host).toList u.path.toList = []
    · have hvpath2 : (gparse.NormalizeUrl u).path = "/" := by
        rw [hvpath, hq0]
        decide
      have h1 : gparse.normalizePathList (gparse.lowerStr u.host).toList
          (String.toList "/") = ['/'] :=
        pathNF_normalize (pathNF_slash (gparse.lowerStr u.host).toList)
      rw [NormalizeUrl_path, hvh, lowerStr_idem, hvpath2, h1]
      decide
    · have hne : ¬(String.mk (gparse.normalizePathList
          (gparse.lowerStr u.host).toList u.path.toList) = "") :=
        fun hx => hq0 ((mk_eq_empty_iff2 _).mp hx)
      have hvpath2 : (gparse.NormalizeUrl u).path =
          String.mk (gparse.normalizePathList
            (gparse.lowerStr u.host).toList u.path.toList) := by
        rw [hvpath, if_neg hne]
      have hnf := normalize_pathNF (gparse.lowerStr u.host).toList
        u.path.toList hesc hq0
      have h1 : (String.mk (gparse.normalizePathList
          (gparse.lowerStr u.host).toList u.path.toList)).toList =
          gparse.normalizePathList (gparse.lowerStr u.host).toList
            u.path.toList := rfl
      rw [NormalizeUrl_path, hvh, lowerStr_idem, hvpath2, h1,
        pathNF_normalize hnf, if_neg hne]
  · rw [NormalizeUrl_query, hvq]
    by_cases hc : u.query = some ""
    · rw [if_pos hc, if_neg (by simp)]
    · rw [if_neg hc, if_neg hc]
  · rw [NormalizeUrl_fragment, hvf]


/-! ### Theorems -/

/-- C1: evaluation of `getOrFetchRobotsPrefixes` at the failing input.  The
cache-validity comparison is inverted in the code: for a host `h` whose cache
entry is still valid (`validUntil = 10`, now = 5) the entry is discarded and
the store is consulted (returning the store's `["/b"]`, not the cached
`["/a"]`), while for the same entry once expired (now = 20) the stale cached
`["/a"]` is served without consulting the store — the reverse of the claimed
(and specified) TTL behaviour. -/
theorem getOrFetchRobotsPrefixes_invertedTtl_eval :
    getOrFetchRobotsPrefixes [("h", ⟨["/a"], 10⟩)] 5 "h"
        (DbRobots.rows ["/b"] 50) (FetchRobots.ok ["/c"]) =
      ⟨some ["/b"], [("h", ⟨["/b"], 50⟩)], true, false⟩ ∧
    getOrFetchRobotsPrefixes [("h", ⟨["/a"], 10⟩)] 20 "h"
        (DbRobots.rows ["/b"] 50) (FetchRobots.ok ["/c"]) =
      ⟨some ["/a"], [("h", ⟨["/a"], 10⟩)], false, false⟩ := by
  decide

/-- C3, counterexample: the claim says a chain of 6 redirects is needed for
the "too many redirects" error and that the error is recorded as a 5x-class
(permanent) outcome.  In fact a chain of 5 redirect responses already yields
the error, and the visitor stores it with `statusCode = -1`, which the
flusher's switch routes to the temporary-error branch (`Int.tdiv (-1) 10 = 0`
matches neither the 5x nor the 1x case), not the permanent-error branch. -/
theorem readGemini_redirect_claim_counterexample :
    (readGemini (chainServer 5) (fun s => some s) (chainUrl 0)).error =
      some "Too many redirects" ∧
    flusherAction (visitorWrap (chainUrl 0)
        (readGemini (chainServer 6) (fun s => some s) (chainUrl 0)) none) =
      FlushAction.tempError ∧
    flusherAction (visitorWrap (chainUrl 0)
        (readGemini (chainServer 6) (fun s => some s) (chainUrl 0)) none) ≠
      FlushAction.permanentError := by
  decide

/-- C3, amended: `readGemini` follows at most 4 redirect responses (the
counter errors out when it reaches `maxRedirects = 5` after the increment):
a chain of 4 redirects still reaches the final 2x response, a chain of 5
produces the "too many redirects" error, the visitor records that error with
`statusCode = -1`, and the flusher persists it through the temporary-error
path (exponential backoff: a 1-day retry doubles to 2 days), not as a
5x-class permanent outcome. -/
theorem readGemini_redirect_semantics :
    (readGemini (chainServer 4) (fun s => some s) (chainUrl 0)).error = none ∧
    (readGemini (chainServer 4) (fun s => some s) (chainUrl 0)).code = 20 ∧
    (readGemini (chainServer 5) (fun s => some s) (chainUrl 0)).error =
      some "Too many redirects" ∧
    (visitorWrap (chainUrl 0)
        (readGemini (chainServer 5) (fun s => some s) (chainUrl 0)) none).statusCode =
      -1 ∧
    flusherAction (visitorWrap (chainUrl 0)
        (readGemini (chainServer 5) (fun s => some s) (chainUrl 0)) none) =
      FlushAction.tempError ∧
    tempErrorRetryDays (some 1) = some 2 := by
  decide

/-- C7, counterexample: removing self-loop edges changes the result of
`pagerank`.  On the single self-edge `1 → 1`, `pagerank` returns the rank map
`{1 ↦ 1.0}` (node 1 enters the node set, receives the whole leak, and the
loop converges in one iteration), while on the self-free edge list (empty) it
returns the empty map — so `pagerank L = pagerank (selfFree L)` fails. -/
theorem pagerank_selfLoop_counterexample :
    pagerank.pagerank 1 [⟨1, 1⟩] = some [(1, 1)] ∧
    pagerank.pagerank 1 (pagerank.selfFree [⟨1, 1⟩]) = some [] ∧
    pagerank.pagerank 1 [⟨1, 1⟩] ≠ pagerank.pagerank 1 (pagerank.selfFree [⟨1, 1⟩]) := by
  have h1 : pagerank.pagerank 1 [⟨1, 1⟩] = some [(1, 1)] := by
    simp [pagerank.pagerank, pagerank.pagerankLoop, pagerank.iterStep,
      pagerank.redistribute, pagerank.nodesOf, pagerank.outDegree,
      pagerank.epsilon, pagerank.beta]
    norm_num
  have h2 : pagerank.pagerank 1 (pagerank.selfFree [⟨1, 1⟩]) = some [] := by
    simp [pagerank.selfFree, pagerank.pagerank]
  refine ⟨h1, h2, ?_⟩
  rw [h1, h2]
  simp

/-- C7, amended: self-loop edges are skipped by the redistribution step of
each iteration (redistributing over `L` equals redistributing over
`selfFree L`, for every rank and out-degree assignment), but they do count
toward the out-degrees used as divisors and toward the node set — with edges
`[1→2, 1→1]` node 1 has out-degree 2, and the lone self-edge `1→1` puts node
1 in the node set — which is why `pagerank L` may differ from
`pagerank (selfFree L)`. -/
theorem pagerank_selfLoop_semantics :
    (∀ (links : List pagerank.Link) (ranks outDeg acc : Int → ℚ),
      pagerank.redistribute links ranks outDeg acc =
        pagerank.redistribute (pagerank.selfFree links) ranks outDeg acc) ∧
    pagerank.outDegree [⟨1, 2⟩, ⟨1, 1⟩] 1 = 2 ∧
    pagerank.nodesOf [⟨1, 1⟩] = [1] := by
  refine ⟨?_, ?_, ?_⟩
  · intro links ranks outDeg acc
    induction links generalizing acc with
    | nil => rfl
    | cons l rest ih =>
      by_cases h : l.src = l.dst
      · simp [pagerank.redistribute, pagerank.selfFree, List.filter_cons, h, ih]
      · simp [pagerank.redistribute, pagerank.selfFree, List.filter_cons, h, ih]
  · simp [pagerank.outDegree]
  · simp [pagerank.nodesOf]

/-! Helper lemmas for the title-selection property (C5). -/

theorem mk_eq_empty_iff (l : List Char) : String.mk l = "" ↔ l = [] :=
  ⟨fun h => congrArg String.data h, fun h => by subst h; rfl⟩

theorem headingMatch_text_ne (line : List Char) (lt : Nat × List Char) :
    gparse.headingMatch line = some lt → lt.2 ≠ [] := by
  intro h
  unfold gparse.headingMatch at h
  dsimp only at h
  split_ifs at h with h1 h2 h3
  · injection h with he
    subst he
    simpa using h2
  · injection h with he
    subst he
    simp

theorem gemtextLine_text_ne (f : String → Option String) (st : gparse.GemtextState)
    (line : List Char) (hst : ∀ h ∈ st.headings, h.text ≠ "") :
    ∀ h ∈ (gparse.gemtextLine f st line).headings, h.text ≠ "" := by
  intro h hmem
  unfold gparse.gemtextLine at hmem
  dsimp only at hmem
  split at hmem
  · split_ifs at hmem <;> exact hst h (by simpa using hmem)
  · split at hmem
    · split_ifs at hmem <;> exact hst h (by simpa using hmem)
    · split at hmem
      · exact hst h (by simpa using hmem)
      · split at hmem
        · rename_i lt hmatch
          simp at hmem
          rcases hmem with hmem | hmem
          · exact hst h hmem
          · subst hmem
            have := headingMatch_text_ne _ _ hmatch
            simpa [String.ext_iff] using this
        · split at hmem
          · split at hmem
            · exact hst h (by simpa using hmem)
            · split_ifs at hmem <;> exact hst h (by simpa using hmem)
          · split_ifs at hmem <;> exact hst h (by simpa using hmem)

theorem foldlGemtext_text_ne (f : String → Option String)
    (lines : List (List Char)) (st : gparse.GemtextState)
    (hst : ∀ h ∈ st.headings, h.text ≠ "") :
    ∀ h ∈ (lines.foldl (gparse.gemtextLine f) st).headings, h.text ≠ "" := by
  induction lines generalizing st with
  | nil => exact hst
  | cons l rest ih => exact ih _ (gemtextLine_text_ne f st l hst)

theorem titleLoop_find_some (hs : List gparse.Heading) :
    ∀ (t : String) (h : gparse.Heading),
      hs.find? gparse.isTitleHeading = some h → gparse.titleLoop t hs = h.text := by
  induction hs with
  | nil => intro t h hfind; simp at hfind
  | cons h0 rest ih =>
    intro t h hfind
    by_cases hp : gparse.isTitleHeading h0
    · rw [List.find?_cons_of_pos _ hp] at hfind
      injection hfind with he
      subst he
      simp [gparse.titleLoop, hp]
    · rw [List.find?_cons_of_neg _ hp] at hfind
      simp only [gparse.titleLoop, hp, if_false, Bool.false_eq_true]
      exact ih _ _ hfind

theorem titleLoop_find_none (hs : List gparse.Heading) :
    hs.find? gparse.isTitleHeading = none →
    ∀ t, gparse.titleLoop t hs = (hs.map gparse.Heading.text).getLastD t := by
  induction hs with
  | nil => intro _ t; rfl
  | cons h0 rest ih =>
    intro hfind t
    rw [List.find?_cons] at hfind
    split at hfind
    · exact absurd hfind (by simp)
    · rename_i hp
      simp only [gparse.titleLoop, hp, if_false, Bool.false_eq_true,
        List.map_cons, List.getLastD_cons]
      exact ih hfind h0.text

/-- C5, counterexample: for the document `## a\n## b1` — whose headings
contain no mostly-alphanumeric level-1 heading — the chosen title is the text
of the LAST heading (`b1`), not of the first heading (`a`) as claimed: the
selection loop overwrites the title with every heading it passes. -/
theorem parseGemtext_title_counterexample :
    (gparse.ParseGemtext (fun _ => none) "## a\n## b1").headings =
      [⟨2, "a"⟩, ⟨2, "b1"⟩] ∧
    (gparse.ParseGemtext (fun _ => none) "## a\n## b1").title = "b1" ∧
    (gparse.ParseGemtext (fun _ => none) "## a\n## b1").title ≠ "a" := by
  decide

/-- C5, amended: the title chosen by `ParseGemtext` follows this precedence:
the first heading whose level is 1 and whose text is mostly alphanumeric;
otherwise the LAST heading (at any level); otherwise the first non-empty,
mostly-alphanumeric plain text line; otherwise the first link anchor text
that is mostly alphanumeric — each followed by the trim/truncate
post-processing.  In particular, for a document whose headings contain no
mostly-alphanumeric level-1 heading, the title is the text of the last
heading, not the first. -/
theorem parseGemtext_title_precedence (f : String → Option String) (text : String) :
    (∀ h, (gparse.ParseGemtext f text).headings.find? gparse.isTitleHeading = some h →
      (gparse.ParseGemtext f text).title =
        gparse.shortenTitleIfNeeded (String.mk (trimSpaceList h.text.toList))) ∧
    ((gparse.ParseGemtext f text).headings.find? gparse.isTitleHeading = none →
      (gparse.ParseGemtext f text).headings ≠ [] →
      (gparse.ParseGemtext f text).title =
        gparse.shortenTitleIfNeeded (String.mk (trimSpaceList
          (((gparse.ParseGemtext f text).headings.map gparse.Heading.text).getLastD "").toList))) ∧
    (((splitOnChar '\n' text.toList).foldl (gparse.gemtextLine f)
        ⟨[], [], false, [], [], []⟩).headings = [] →
      ((splitOnChar '\n' text.toList).foldl (gparse.gemtextLine f)
        ⟨[], [], false, [], [], []⟩).firstLine ≠ [] →
      (gparse.ParseGemtext f text).title =
        gparse.shortenTitleIfNeeded (String.mk (trimSpaceList
          ((splitOnChar '\n' text.toList).foldl (gparse.gemtextLine f)
            ⟨[], [], false, [], [], []⟩).firstLine))) ∧
    (((splitOnChar '\n' text.toList).foldl (gparse.gemtextLine f)
        ⟨[], [], false, [], [], []⟩).headings = [] →
      ((splitOnChar '\n' text.toList).foldl (gparse.gemtextLine f)
        ⟨[], [], false, [], [], []⟩).firstLine = [] →
      (gparse.ParseGemtext f text).title =
        gparse.shortenTitleIfNeeded (String.mk (trimSpaceList
          (gparse.firstAlnumLinkText
            ((splitOnChar '\n' text.toList).foldl (gparse.gemtextLine f)
              ⟨[], [], false, [], [], []⟩).links).toList))) := by
  have hne : ∀ h ∈ ((splitOnChar '\n' text.toList).foldl (gparse.gemtextLine f)
      ⟨[], [], false, [], [], []⟩).headings, h.text ≠ "" :=
    foldlGemtext_text_ne f _ _ (by simp)
  refine ⟨?_, ?_, ?_, ?_⟩
  · intro h hfind
    have hmem : h ∈ (gparse.ParseGemtext f text).headings := List.mem_of_find?_eq_some hfind
    have hte : h.text ≠ "" := hne h hmem
    have ht0 : gparse.titleLoop ""
        ((splitOnChar '\n' text.toList).foldl (gparse.gemtextLine f)
          ⟨[], [], false, [], [], []⟩).headings = h.text :=
      titleLoop_find_some _ _ _ hfind
    simp only [gparse.ParseGemtext, gparse.selectTitle] at *
    rw [ht0]
    simp [hte]
  · intro hfind hnil
    have ht0 : gparse.titleLoop ""
        ((splitOnChar '\n' text.toList).foldl (gparse.gemtextLine f)
          ⟨[], [], false, [], [], []⟩).headings =
        (((splitOnChar '\n' text.toList).foldl (gparse.gemtextLine f)
          ⟨[], [], false, [], [], []⟩).headings.map gparse.Heading.text).getLastD "" :=
      titleLoop_find_none _ hfind ""
    have hlast : (((splitOnChar '\n' text.toList).foldl (gparse.gemtextLine f)
        ⟨[], [], false, [], [], []⟩).headings.map gparse.Heading.text).getLastD "" ≠ "" := by
      have hnil2 : (((splitOnChar '\n' text.toList).foldl (gparse.gemtextLine f)
          ⟨[], [], false, [], [], []⟩).headings.map gparse.Heading.text) ≠ [] := by
        simpa using hnil
      rw [List.getLastD_eq_getLast?, List.getLast?_eq_getLast _ hnil2, Option.getD_some]
      have := List.getLast_mem hnil2
      rcases List.mem_map.mp this with ⟨h, hmem, heq⟩
      rw [← heq]
      exact hne h hmem
    simp only [gparse.ParseGemtext, gparse.selectTitle]
    rw [ht0, if_neg hlast, if_neg hlast]
  · intro hnil hfl
    simp only [gparse.ParseGemtext, gparse.selectTitle]
    rw [hnil]
    simp only [gparse.titleLoop, if_pos rfl]
    simp only [String.toList] at hfl
    simp [mk_eq_empty_iff, hfl]
  · intro hnil hfl
    simp only [gparse.ParseGemtext, gparse.selectTitle]
    rw [hnil, hfl]
    simp [gparse.titleLoop]

/-- Witness for `parseGemtext_title_precedence`: the first-branch hypothesis
discharged on `# Hello` (a mostly-alphanumeric level-1 heading) and the
second-branch hypotheses discharged on `## a\n## b1`. -/
theorem parseGemtext_title_precedence_witness :
    (gparse.ParseGemtext (fun _ => none) "# Hello").title =
      gparse.shortenTitleIfNeeded (String.mk (trimSpaceList "Hello".toList)) ∧
    (gparse.ParseGemtext (fun _ => none) "## a\n## b1").title =
      gparse.shortenTitleIfNeeded (String.mk (trimSpaceList
        (((gparse.ParseGemtext (fun _ => none) "## a\n## b1").headings.map
          gparse.Heading.text).getLastD "").toList)) := by
  constructor
  · exact (parseGemtext_title_precedence (fun _ => none) "# Hello").1 ⟨1, "Hello"⟩
      (by decide)
  · exact (parseGemtext_title_precedence (fun _ => none) "## a\n## b1").2.1
      (by decide) (by decide)

/-- C8: on indexer startup, with both slots on disk and both opening, the
slot with the larger document count is selected (ping 100 / pong 120 selects
pong); when exactly one opens — whether because only one is on disk or
because the other fails to open — that one is selected; when neither slot is
on disk, a fresh ping index is built synchronously inside `loadInitialIndex`;
and each rebuild cycle targets the slot other than the live one and swaps the
alias to it. -/
theorem loadInitialIndex_selection :
    (∀ cp cq : Nat,
      indexer.loadInitialIndex ⟨true, true, some cp⟩ ⟨true, true, some cq⟩ =
        .selected (if cp > cq then .ping else .pong)) ∧
    indexer.loadInitialIndex ⟨true, true, some 100⟩ ⟨true, true, some 120⟩ =
      .selected .pong ∧
    (∀ pc qc : Option Nat,
      indexer.loadInitialIndex ⟨true, true, pc⟩ ⟨true, false, qc⟩ =
        .selected .ping) ∧
    (∀ pc qc : Option Nat,
      indexer.loadInitialIndex ⟨true, false, pc⟩ ⟨true, true, qc⟩ =
        .selected .pong) ∧
    (∀ (pc : Option Nat) (qop : Bool) (qc : Option Nat),
      indexer.loadInitialIndex ⟨true, true, pc⟩ ⟨false, qop, qc⟩ =
        .selected .ping) ∧
    (∀ (pop : Bool) (pc : Option Nat) (qc : Option Nat),
      indexer.loadInitialIndex ⟨false, pop, pc⟩ ⟨true, true, qc⟩ =
        .selected .pong) ∧
    (∀ (pop qop : Bool) (pc qc : Option Nat),
      indexer.loadInitialIndex ⟨false, pop, pc⟩ ⟨false, qop, qc⟩ =
        .builtFreshPing) ∧
    (∀ cur : indexer.Slot,
      indexer.indexDb cur = indexer.other cur ∧ indexer.indexDb cur ≠ cur) := by
  refine ⟨?_, ?_, ?_, ?_, ?_, ?_, ?_, ?_⟩
  · intro cp cq
    by_cases h : cp > cq <;> simp [indexer.loadInitialIndex, h]
  · simp [indexer.loadInitialIndex]
  · intro pc qc
    simp [indexer.loadInitialIndex]
  · intro pc qc
    simp [indexer.loadInitialIndex]
  · intro pc qop qc
    simp [indexer.loadInitialIndex]
  · intro pop pc qc
    simp [indexer.loadInitialIndex]
  · intro pop qop pc qc
    simp [indexer.loadInitialIndex]
  · intro cur
    cases cur <;> simp [indexer.indexDb, indexer.other]

/-- C9, counterexample: a request line that is not valid JSON does not get a
JSON error response — `handleConn` writes the plain bytes `bad request`
(with no framing newline), whose first byte is not the `{` that opens every
`errorResponse` JSON object. -/
theorem handleConn_malformed_counterexample :
    searchd.handleConn .malformed [] (.err "x") (.err "y") = .raw "bad request" ∧
    "bad request".data.take 1 ≠
      (searchd.errorResponse "bad request").data.take 1 := by
  decide

/-- C9, amended: a malformed request line gets the plain-text `bad request`
(not a JSON error response); a search request with an empty query gets the
error response `no query`, whose wire form is `{"err":"no query"}\r\n`; a
search request with page < 1 gets the invalid-page error response; and a
well-formed search request returns at most `PageSize` (15) results.  The
handler is a total function of the request — no request crashes it. -/
theorem handleConn_error_handling :
    (∀ (docs : List searchd.PageDocM) (r g : searchd.Resp),
      searchd.handleConn .malformed docs r g = .raw "bad request") ∧
    (∀ (docs : List searchd.PageDocM) (r g : searchd.Resp) (page : Option Int),
      searchd.handleConn (.obj (some "search") true "" page) docs r g =
        .resp (.err "no query")) ∧
    searchd.errorResponse "no query" = "\x7b\"err\":\"no query\"\x7d\r\n" ∧
    (∀ (q : String) (p : Int) (docs : List searchd.PageDocM) (r g : searchd.Resp),
      q ≠ "" → p < 1 →
      searchd.handleConn (.obj (some "search") true q (some p)) docs r g =
        .resp (.err "Invalid page number (needs to be greater than or equal to 1)")) ∧
    (∀ (query : String) (page : Int) (docs hits : List searchd.PageDocM),
      searchd.SearchPages query page docs = .ok hits →
      hits.length ≤ searchd.PageSize) := by
  refine ⟨?_, ?_, ?_, ?_, ?_⟩
  · intro docs r g
    rfl
  · intro docs r g page
    rfl
  · rfl
  · intro q p docs r g hq hp
    simp [searchd.handleConn, searchd.handleSearchRequest, searchd.SearchPages,
      hq, hp]
  · intro query page docs hits h
    by_cases hp : page < 1
    · simp [searchd.SearchPages, hp] at h
    · simp [searchd.SearchPages, hp] at h
      subst h
      simp only [searchd.bleveSearchHits]
      exact List.length_take_le _ _

/-- Witness for `handleConn_error_handling`: the page-0 and result-count
conjuncts applied at concrete inputs. -/
theorem handleConn_error_handling_witness :
    searchd.handleConn (.obj (some "search") true "a" (some 0)) []
        (.err "x") (.err "y") =
      .resp (.err "Invalid page number (needs to be greater than or equal to 1)") ∧
    (searchd.bleveSearchHits [⟨"u", "t", "a", ""⟩] "a" 0 searchd.PageSize).length ≤
      searchd.PageSize := by
  constructor
  · exact handleConn_error_handling.2.2.2.1 "a" 0 [] (.err "x") (.err "y")
      (by decide) (by decide)
  · exact handleConn_error_handling.2.2.2.2 "a" 1 [⟨"u", "t", "a", ""⟩]
      (searchd.bleveSearchHits [⟨"u", "t", "a", ""⟩] "a" 0 searchd.PageSize) rfl

/-- C10: for a connection whose request line is valid JSON but whose `t`
field is none of `search`, `randimg`, `getimg` (for example `searchimg`),
`handleConn` returns without writing anything: the constructed
"unknown request type" error response is never sent. -/
theorem handleConn_unknownType_writesNothing :
    ∀ (t : String) (fieldsOk : Bool) (q : String) (page : Option Int)
      (docs : List searchd.PageDocM) (r g : searchd.Resp),
      t ≠ "search" → t ≠ "randimg" → t ≠ "getimg" →
      searchd.handleConn (.obj (some t) fieldsOk q page) docs r g = .nothing := by
  intro t fieldsOk q page docs r g h1 h2 h3
  simp only [searchd.handleConn, Option.getD]

/-- Witness for `handleConn_unknownType_writesNothing` at `t = "searchimg"`. -/
theorem handleConn_unknownType_writesNothing_witness :
    searchd.handleConn (.obj (some "searchimg") true "x" none) []
        (.err "a") (.err "b") = .nothing :=
  handleConn_unknownType_writesNothing "searchimg" true "x" none [] (.err "a")
    (.err "b") (by decide) (by decide) (by decide)

/-- C2: when the flusher persists a 2x visit result with no parse error, the
URL row's `retry_time` becomes `min(retry_time + 2 days, 1 month)` if the
upserted content id equals the stored `content_id`, and 2 days otherwise; and
after two consecutive successful visits with identical content starting from
`retry_time` = 2 days, `retry_time` is 4 days. -/
theorem updateDbSuccessfulVisit_retry_policy :
    (∀ (st : CrawlDbState) (hash : String) (code : Int) (now r : Nat),
      st.row.contentId = some (upsertContent st.contents hash).1 →
      st.row.retryDays = some r →
      (updateDbSuccessfulVisit st hash code now).row.retryDays =
        some (min (r + 2) 30)) ∧
    (∀ (st : CrawlDbState) (hash : String) (code : Int) (now : Nat),
      st.row.contentId ≠ some (upsertContent st.contents hash).1 →
      (updateDbSuccessfulVisit st hash code now).row.retryDays = some 2) ∧
    (∀ (contents : ContentsTable) (hash : String) (code : Int)
        (t1 t2 : Nat) (row : UrlRow),
      row.contentId = none →
      row.retryDays = some 2 →
      (updateDbSuccessfulVisit
        (updateDbSuccessfulVisit ⟨contents, row⟩ hash code t1)
        hash code t2).row.retryDays = some 4) := by
  refine ⟨?_, ?_, ?_⟩
  · intro st hash code now r hcid hr
    simp [updateDbSuccessfulVisit, successRetryDays, hcid, hr,
      revisitTimeIncrementNoChangeDays, maxRevisitTimeDays]
  · intro st hash code now hcid
    simp [updateDbSuccessfulVisit, successRetryDays, hcid,
      revisitTimeAfterChangeDays]
  · intro contents hash code t1 t2 row hcid hr
    have hfst :
        (upsertContent (upsertContent contents hash).2 hash).1 =
          (upsertContent contents hash).1 := by
      unfold upsertContent
      cases hfind : contents.rows.find? (fun r => r.2 == hash) with
      | some r => simp [hfind]
      | none => simp [hfind]
    simp [updateDbSuccessfulVisit, successRetryDays, hcid, hr, hfst,
      revisitTimeIncrementNoChangeDays, maxRevisitTimeDays,
      revisitTimeAfterChangeDays]

/-- Witness for `updateDbSuccessfulVisit_retry_policy` at concrete inputs:
a row whose stored content id matches the upserted hash (first conjunct),
a fresh row (second conjunct), and the two-visit scenario (third conjunct). -/
theorem updateDbSuccessfulVisit_retry_policy_witness :
    (updateDbSuccessfulVisit
      ⟨⟨[(7, "h")], 8⟩, ⟨some 7, some 2, 20, none, none⟩⟩ "h" 20 100).row.retryDays =
      some (min (2 + 2) 30) ∧
    (updateDbSuccessfulVisit
      ⟨⟨[], 1⟩, ⟨none, some 2, 20, none, none⟩⟩ "h" 20 100).row.retryDays = some 2 ∧
    (updateDbSuccessfulVisit
      (updateDbSuccessfulVisit
        ⟨⟨[], 1⟩, ⟨none, some 2, 20, none, none⟩⟩ "h" 20 100)
      "h" 20 200).row.retryDays = some 4 := by
  refine ⟨?_, ?_, ?_⟩
  · exact updateDbSuccessfulVisit_retry_policy.1
      ⟨⟨[(7, "h")], 8⟩, ⟨some 7, some 2, 20, none, none⟩⟩ "h" 20 100 2
      (by decide) rfl
  · exact updateDbSuccessfulVisit_retry_policy.2.1
      ⟨⟨[], 1⟩, ⟨none, some 2, 20, none, none⟩⟩ "h" 20 100 (by decide)
  · exact updateDbSuccessfulVisit_retry_policy.2.2
      ⟨[], 1⟩ "h" 20 100 200 ⟨none, some 2, 20, none, none⟩ rfl rfl

/-- C4: parsing the robots.txt file
`User-agent: *\nDisallow: /a\nDisallow: \nUser-agent: other\nDisallow: /b`
yields exactly the prefix list `["/a"]` for this crawler: the empty Disallow
value adds nothing, and the `/b` rule is scoped to the user-agent `other`,
which this crawler does not answer to. -/
theorem fetchRobotsRulesParse_example :
    fetchRobotsRulesParse
      "User-agent: *\nDisallow: /a\nDisallow: \nUser-agent: other\nDisallow: /b" =
      ["/a"] := by
  decide

/-- C6: `NormalizeUrl` is idempotent on well-formed URLs (lower-case scheme
and well-formed path escapes, as `url.Parse` guarantees), and on the concrete
input `gemini://Example.com:1965/a/./b//c` it returns
`gemini://example.com/a/b/c`: the host is lower-cased, the default gemini
port 1965 is removed, dot-segments are removed and duplicate slashes are
collapsed. -/
theorem NormalizeUrl_idempotent_and_example :
    (∀ u : gparse.GoUrl, gparse.wellFormed u →
      gparse.NormalizeUrl (gparse.NormalizeUrl u) = gparse.NormalizeUrl u) ∧
    gparse.NormalizeUrl
        ⟨"gemini", "Example.com", some "1965", "/a/./b//c", none, none⟩ =
      ⟨"gemini", "example.com", none, "/a/b/c", none, none⟩ ∧
    gparse.renderUrl (gparse.NormalizeUrl
        ⟨"gemini", "Example.com", some "1965", "/a/./b//c", none, none⟩) =
      "gemini://example.com/a/b/c" :=
  ⟨NormalizeUrl_idem, by decide, by decide⟩

/-- Witness for C6: the idempotence law instantiated at a concrete
well-formed URL, with the hypothesis discharged by `decide`. -/
theorem NormalizeUrl_idempotent_and_example_witness :
    gparse.wellFormed ⟨"gemini", "example.com", none, "/a/b/c", none, none⟩ ∧
    gparse.NormalizeUrl (gparse.NormalizeUrl
        ⟨"gemini", "example.com", none, "/a/b/c", none, none⟩) =
      gparse.NormalizeUrl
        ⟨"gemini", "example.com", none, "/a/b/c", none, none⟩ :=
  ⟨by unfold gparse.wellFormed; decide,
   NormalizeUrl_idempotent_and_example.1
     ⟨"gemini", "example.com", none, "/a/b/c", none, none⟩
     (by unfold gparse.wellFormed; decide)⟩

end Gemplex
